import Mathlib

/-!
# Verification of the open-addressing hash table in `table.c`

Shallow embedding of the C source file `table.c` (repository `pzenie/c-HashTable`).
The table stores opaque keys and values; we model them as type parameters `K`, `V`.
C pointers to entries become `Option (Entry K V)`; the slot array `Entry**` becomes a
`List (Option (Entry K V))`.  `size_t` counters are modelled as `Nat` (the C program
aborts on allocation failure long before any `size_t` overflow could occur).  The
`long` returned by the user hash function is modelled as `Int`, and the C conversion
of that signed value to `size_t` in `hash % tab->capacity` is modelled explicitly as
reduction modulo 2^64.

A C operation can (a) return a value, (b) die on `assert(NULL)`, or (c) loop forever
(the probe loop on a full table with no match); `CResult` has one constructor for each.
-/

/-- Outcome of running a C operation: normal return, `assert` failure (process abort),
or an infinite loop. -/
inductive CResult (α : Type u) where
  | ok : α → CResult α
  | abort : CResult α
  | hang : CResult α
deriving Repr, DecidableEq

/-- One occupied slot, mirroring `struct Entry { void* key; void* value; }`. -/
structure Entry (K V : Type) where
  key : K
  value : V
deriving Repr, DecidableEq

/-- Mirrors `struct Table` from the repository: the slot array, the running counters
and the three behaviour functions supplied at construction. -/
structure Table (K V : Type) where
  hash : K → Int
  equals : K → K → Bool
  print : K → V → Unit
  size : Nat
  capacity : Nat
  collisions : Nat
  rehashes : Nat
  table : List (Option (Entry K V))

/-- Modelled from the spec: `INITIAL_CAPACITY` lives in the header `table.h`, which is
not part of `src/`; the spec fixes the initial capacity to 8. -/
def INITIAL_CAPACITY : Nat := 8

/-- Modelled from the spec: `RESIZE_FACTOR` lives in the header `table.h`, which is
not part of `src/`; the spec fixes the growth factor to 2. -/
def RESIZE_FACTOR : Nat := 2

/-- Modelled from the spec: `LOAD_THRESHOLD` (0.75) lives in the header `table.h`,
which is not part of `src/`.  The C test is
`((double)tab->size / (double)tab->capacity) >= LOAD_THRESHOLD`; because every
capacity is a power of two (8 · 2^r), the double division is exact, so the test is
exactly the rational comparison size/capacity ≥ 3/4, i.e. `3 * cap ≤ 4 * size`. -/
def loadCheck (size cap : Nat) : Bool := 3 * cap ≤ 4 * size

/-- `tab->table[i]`: reading slot `i` (out-of-range reads never happen on the
tables we prove about; `getD` defaults to an empty slot). -/
def slotAt (s : List (Option (Entry K V))) (i : Nat) : Option (Entry K V) :=
  s.getD i none

/-- `int index = hash % tab->capacity;` — the `long` hash is converted to `size_t`
(reduction mod 2^64, the LP64 `size_t` width), then reduced mod the capacity. -/
def startIndex (h : Int) (cap : Nat) : Nat :=
  (h % ((2 : Int) ^ 64)).toNat % cap

/-- The index step shared by `get`, `has` and `put`:
`if (index < (int)(tab->capacity - 1)) index++; else index = 0;`. -/
def nextIndex (cap i : Nat) : Nat :=
  if i < cap - 1 then i + 1 else 0

/-- Result of the linear-probe loop: a matching occupied slot, the first empty slot,
or divergence (the C loop never exits).  The final `Nat` is the number of
`tab->collisions++` increments performed, one per probed non-matching occupied slot. -/
inductive ProbeRes (K V : Type) where
  | found : Nat → Entry K V → Nat → ProbeRes K V
  | empty : Nat → Nat → ProbeRes K V
  | diverge : ProbeRes K V
deriving Repr, DecidableEq

/-- The probe loop of `get`/`has`/`put`, with explicit fuel.  Each iteration reads
slot `i`; an empty slot or an `equals` match exits the loop, otherwise the collision
counter is bumped and the index advances.  `fuel` bounds the number of reads; the
callers pass `capacity` and we prove that suffices whenever an empty slot exists
(otherwise the C loop genuinely runs forever, which `diverge` records). -/
def probeAux (eqs : K → K → Bool) (s : List (Option (Entry K V))) (cap : Nat) (k : K) :
    Nat → Nat → Nat → ProbeRes K V
  | 0, _, _ => .diverge
  | fuel + 1, i, colls =>
    match slotAt s i with
    | none => .empty i colls
    | some e =>
      if eqs e.key k then .found i e colls
      else probeAux eqs s cap k fuel (nextIndex cap i) (colls + 1)

/-- The starting probe index of a key in a table. -/
def Table.start (tab : Table K V) (k : K) : Nat :=
  startIndex (tab.hash k) tab.capacity

/-- The probe loop as run by `get`, `has` and `put`: starts at `hash(key) % capacity`
with fuel `capacity` (enough to visit every slot once). -/
def runProbe (tab : Table K V) (k : K) : ProbeRes K V :=
  probeAux tab.equals tab.table tab.capacity k tab.capacity (tab.start k) 0

/-- `create`: a fresh table with `INITIAL_CAPACITY` empty slots and zeroed counters. -/
def Table.create (h : K → Int) (eqs : K → K → Bool) (pr : K → V → Unit) : Table K V :=
  { hash := h, equals := eqs, print := pr, size := 0, capacity := INITIAL_CAPACITY,
    collisions := 0, rehashes := 0,
    table := List.replicate INITIAL_CAPACITY none }

/-- Add `d` to the collision counter (the only field `get`/`has` mutate). -/
def bumpColl (tab : Table K V) (d : Nat) : Table K V :=
  { tab with collisions := tab.collisions + d }

/-- `get`: probes for the key; returns the stored value on a match, dies on
`assert(NULL)` if the probe reaches an empty slot.  The returned table records the
collision increments the probe performed. -/
def Table.get (tab : Table K V) (k : K) : CResult (V × Table K V) :=
  match runProbe tab k with
  | .found _ e d => .ok (e.value, bumpColl tab d)
  | .empty _ _ => .abort
  | .diverge => .hang

/-- `has`: same probe as `get`, but an empty slot returns `false` instead of aborting. -/
def Table.has (tab : Table K V) (k : K) : CResult (Bool × Table K V) :=
  match runProbe tab k with
  | .found _ _ d => .ok (true, bumpColl tab d)
  | .empty _ d => .ok (false, bumpColl tab d)
  | .diverge => .hang

/-- The insert path of `put`: write a fresh entry into empty slot `j`, increment
`size` (the probe bumped `collisions` by `d`). -/
def insertAt (tab : Table K V) (j d : Nat) (k : K) (v : V) : Table K V :=
  { tab with table := tab.table.set j (some ⟨k, v⟩), size := tab.size + 1,
             collisions := tab.collisions + d }

/-- The update path of `put`: `curr->value = value` at slot `j` holding entry `e`. -/
def updateAt (tab : Table K V) (j d : Nat) (e : Entry K V) (v : V) : Table K V :=
  { tab with table := tab.table.set j (some ⟨e.key, v⟩),
             collisions := tab.collisions + d }

/-- The re-insertion loop of `rehash`: walks the old slot array in index order and
replays `put` (whose return value the C code ignores) on every occupied slot. -/
def reinsertList (putF : Table K V → K → V → CResult (Option V × Table K V)) :
    Table K V → List (Option (Entry K V)) → CResult (Table K V)
  | tab, [] => .ok tab
  | tab, none :: rest => reinsertList putF tab rest
  | tab, some e :: rest =>
    match putF tab e.key e.value with
    | .ok (_, tab') => reinsertList putF tab' rest
    | .abort => .abort
    | .hang => .hang

/-- `rehash`: allocate a fresh slot array of capacity `capacity * RESIZE_FACTOR`,
reset `size` to 0, re-insert every occupied old slot via `put`, then increment
`rehashes`.  `putF` is the `put` used for re-insertion (tied at `Table.putFuel`). -/
def doRehash (putF : Table K V → K → V → CResult (Option V × Table K V))
    (tab : Table K V) : CResult (Table K V) :=
  match reinsertList putF
      { tab with capacity := tab.capacity * RESIZE_FACTOR,
                 table := List.replicate (tab.capacity * RESIZE_FACTOR) none,
                 size := 0 }
      tab.table with
  | .ok t2 => .ok { t2 with rehashes := t2.rehashes + 1 }
  | .abort => .abort
  | .hang => .hang

/-- The body of `put` given a rehash routine: probe, then update in place or insert
into the first empty slot; after an insert, if `size/capacity` reaches the load
threshold, rehash synchronously before returning.  A fresh insert returns `none`
(C's `NULL`), an update returns the previous value. -/
def putWith (rehashF : Table K V → CResult (Table K V)) (tab : Table K V) (k : K)
    (v : V) : CResult (Option V × Table K V) :=
  match runProbe tab k with
  | .found j e d => .ok (some e.value, updateAt tab j d e v)
  | .empty j d =>
    if loadCheck (tab.size + 1) tab.capacity then
      match rehashF (insertAt tab j d k v) with
      | .ok t2 => .ok (none, t2)
      | .abort => .abort
      | .hang => .hang
    else .ok (none, insertAt tab j d k v)
  | .diverge => .hang

/-- `put` with explicit rehash-recursion depth: `rehash` re-inserts via the full
`put`, which could in principle rehash again; the fuel bounds that recursion depth.
We prove the depth never exceeds one on well-formed tables, so any fuel ≥ 1 computes
the C behaviour. -/
def Table.putFuel : Nat → Table K V → K → V → CResult (Option V × Table K V)
  | 0 => putWith fun _ => .hang
  | fuel + 1 => putWith (doRehash (Table.putFuel fuel))

/-- `put`: fuel 2 suffices for every reachable table (a triggered rehash never
re-triggers during its re-insertion, which we prove). -/
def Table.put (tab : Table K V) (k : K) (v : V) : CResult (Option V × Table K V) :=
  Table.putFuel 2 tab k v

/-- `keys`: scan the slots in index order, collecting each occupied slot's key.
(The C code allocates exactly `size` cells and fills one per occupied slot; on
well-formed tables those counts agree, which claim C7 proves.) -/
def Table.keys (tab : Table K V) : List K :=
  tab.table.filterMap (Option.map Entry.key)

/-- `values`: scan the slots in index order, collecting each occupied slot's value. -/
def Table.values (tab : Table K V) : List V :=
  tab.table.filterMap (Option.map Entry.value)

/-- The occupied entries of a slot array, in index order. -/
def entriesOf (tab : Table K V) : List (Entry K V) :=
  tab.table.filterMap id

/-- Number of occupied slots. -/
def occCount (s : List (Option (Entry K V))) : Nat :=
  (s.filterMap id).length

/-- Does slot content `o` hold a key `equals`-equal to `k`? -/
def slotMatches (eqs : K → K → Bool) (o : Option (Entry K V)) (k : K) : Bool :=
  match o with
  | none => false
  | some e => eqs e.key k

/-- The table holds an entry whose key is `equals`-equal to `k`. -/
def containsKey (tab : Table K V) (k : K) : Prop :=
  ∃ j < tab.table.length, slotMatches tab.equals (slotAt tab.table j) k = true

instance (tab : Table K V) (k : K) : Decidable (containsKey tab k) := by
  unfold containsKey; infer_instance

/-- Index reached after `t` probe steps from start `i0` (probing wraps mod `cap`). -/
def idx (cap i0 t : Nat) : Nat := (i0 + t) % cap

/-- Number of probe steps from index `i0` forward (wrapping) to index `j`. -/
def distTo (cap i0 j : Nat) : Nat := (j + cap - i0) % cap

/-- Does the probe searching for `k` stop at slot `i` (empty slot or `equals` match)? -/
def isStop (eqs : K → K → Bool) (s : List (Option (Entry K V))) (k : K) (i : Nat) :
    Bool :=
  match slotAt s i with
  | none => true
  | some e => eqs e.key k

/-- Number of non-matching occupied slots the probe for `k` visits before stopping
(`none` if the probe visits all `capacity` slots without stopping, i.e. diverges). -/
def stopSteps (tab : Table K V) (k : K) : Option Nat :=
  (List.range tab.capacity).find? fun t =>
    isStop tab.equals tab.table k (idx tab.capacity (tab.start k) t)

/-- Replay a list of `put` calls (discarding the returned old values), stopping on
abort or divergence. -/
def runPuts : Table K V → List (K × V) → CResult (Table K V)
  | tab, [] => .ok tab
  | tab, (k, v) :: rest =>
    match Table.put tab k v with
    | .ok (_, tab') => runPuts tab' rest
    | .abort => .abort
    | .hang => .hang

/-- The caller-supplied functions are well-behaved, as §6 of the spec requires:
`equals` is an equivalence relation and `equals`-equal keys hash identically. -/
def Good (tab : Table K V) : Prop :=
  (∀ k, tab.equals k k = true) ∧
  (∀ a b, tab.equals a b = true → tab.equals b a = true) ∧
  (∀ a b c, tab.equals a b = true → tab.equals b c = true → tab.equals a c = true) ∧
  (∀ a b, tab.equals a b = true → tab.hash a = tab.hash b)

/-- Structural well-formedness (maintained by every operation, with no assumption
on the behaviour functions): the slot list has exactly `capacity` cells, `size`
counts the occupied slots, the load factor is strictly below the threshold, and the
capacity is `INITIAL_CAPACITY · RESIZE_FACTOR^rehashes`. -/
def SWF (tab : Table K V) : Prop :=
  tab.table.length = tab.capacity ∧
  tab.size = occCount tab.table ∧
  4 * tab.size < 3 * tab.capacity ∧
  tab.capacity = INITIAL_CAPACITY * RESIZE_FACTOR ^ tab.rehashes

/-- Probe well-formedness (maintained when the behaviour functions are `Good`):
every occupied slot is reachable from its key's start index through occupied slots
only, and no two occupied slots hold `equals`-equal keys. -/
def PWF (tab : Table K V) : Prop :=
  (∀ j e, slotAt tab.table j = some e →
    ∀ t, t < distTo tab.capacity (tab.start e.key) j →
      slotAt tab.table (idx tab.capacity (tab.start e.key) t) ≠ none) ∧
  (∀ j1 j2 e1 e2, slotAt tab.table j1 = some e1 → slotAt tab.table j2 = some e2 →
    tab.equals e1.key e2.key = true → j1 = j2)

/-- Tables reachable from `create` by the public operations. -/
inductive Reachable : Table K V → Prop where
  | created (h : K → Int) (eqs : K → K → Bool) (pr : K → V → Unit) :
      Reachable (Table.create h eqs pr)
  | ofPut {tab : Table K V} {k : K} {v : V} {out : Option V × Table K V} :
      Reachable tab → Table.put tab k v = .ok out → Reachable out.2
  | ofGet {tab : Table K V} {k : K} {out : V × Table K V} :
      Reachable tab → Table.get tab k = .ok out → Reachable out.2
  | ofHas {tab : Table K V} {k : K} {out : Bool × Table K V} :
      Reachable tab → Table.has tab k = .ok out → Reachable out.2

/-! ## Concrete witness tables -/

/-- Concrete hash function: the key's value, as the C `long`. -/
def wHash : Fin 8 → Int := fun a => (a.val : Int)

/-- Concrete equality function: decidable equality on `Fin 8`. -/
def wEq : Fin 8 → Fin 8 → Bool := fun a b => a == b

/-- Concrete print function (debug only; never used). -/
def wPr : Fin 8 → Nat → Unit := fun _ _ => ()

/-- A freshly created concrete table. -/
def wT0 : Table (Fin 8) Nat := Table.create wHash wEq wPr

/-- Five distinct key/value pairs, as in the spec's concrete scenario. -/
def wPairs5 : List (Fin 8 × Nat) :=
  [(0, 100), (1, 101), (2, 102), (3, 103), (4, 104)]

/-- The table after inserting the five pairs (size 5, capacity still 8). -/
def wT5 : Table (Fin 8) Nat :=
  match runPuts wT0 wPairs5 with
  | .ok t => t
  | _ => wT0

instance {K V : Type} [Fintype K] [DecidableEq K] (tab : Table K V) :
    Decidable (Good tab) := by
  unfold Good
  infer_instance


/-! ## Arithmetic of probe indices -/

theorem nextIndex_lt (cap i : Nat) (hc : 0 < cap) : nextIndex cap i < cap := by
  unfold nextIndex
  split <;> omega

theorem nextIndex_eq_mod (cap i : Nat) (hi : i < cap) :
    nextIndex cap i = (i + 1) % cap := by
  unfold nextIndex
  split
  · rw [Nat.mod_eq_of_lt] ; omega
  · have : i + 1 = cap := by omega
    rw [this, Nat.mod_self]

theorem idx_lt (cap i0 t : Nat) (hc : 0 < cap) : idx cap i0 t < cap :=
  Nat.mod_lt _ hc

theorem idx_zero (cap i0 : Nat) (h : i0 < cap) : idx cap i0 0 = i0 := by
  simp [idx, Nat.mod_eq_of_lt h]

theorem nextIndex_idx (cap i0 t : Nat) (hc : 0 < cap) :
    nextIndex cap (idx cap i0 t) = idx cap i0 (t + 1) := by
  rw [nextIndex_eq_mod cap _ (idx_lt cap i0 t hc)]
  simp [idx, Nat.add_mod_right, Nat.mod_add_mod]
  rw [Nat.add_assoc]

theorem idx_idx (cap i0 a b : Nat) : idx cap (idx cap i0 a) b = idx cap i0 (a + b) := by
  simp [idx, Nat.mod_add_mod]
  rw [Nat.add_assoc]

theorem idx_inj (cap i0 : Nat) {t1 t2 : Nat} (h1 : t1 < cap) (h2 : t2 < cap)
    (h : idx cap i0 t1 = idx cap i0 t2) : t1 = t2 := by
  unfold idx at h
  have h' : t1 % cap = t2 % cap := Nat.ModEq.add_left_cancel' i0 h
  rwa [Nat.mod_eq_of_lt h1, Nat.mod_eq_of_lt h2] at h'

theorem idx_distTo (cap i0 j : Nat) (hi : i0 < cap) (hj : j < cap) :
    idx cap i0 (distTo cap i0 j) = j := by
  unfold idx distTo
  rw [Nat.add_mod_mod]
  have h1 : i0 + (j + cap - i0) = j + cap := by omega
  rw [h1, Nat.add_mod_right, Nat.mod_eq_of_lt hj]

theorem distTo_lt (cap i0 j : Nat) (hc : 0 < cap) : distTo cap i0 j < cap :=
  Nat.mod_lt _ hc

theorem distTo_idx (cap i0 d : Nat) (hi : i0 < cap) (hd : d < cap) :
    distTo cap i0 (idx cap i0 d) = d := by
  have hc : 0 < cap := by omega
  refine idx_inj cap i0 (distTo_lt cap i0 _ hc) hd ?_
  exact idx_distTo cap i0 _ hi (idx_lt cap i0 d hc)

/-! ## Slot array lemmas -/

theorem slotAt_eq_getElem? (s : List (Option (Entry K V))) (i : Nat) :
    slotAt s i = (s[i]?).getD none := by
  simp [slotAt, List.getD_eq_getElem?_getD]

theorem slotAt_of_ge (s : List (Option (Entry K V))) (i : Nat) (h : s.length ≤ i) :
    slotAt s i = none := by
  rw [slotAt_eq_getElem?, List.getElem?_eq_none h]
  rfl

theorem slotAt_some_lt {s : List (Option (Entry K V))} {i : Nat} {e : Entry K V}
    (h : slotAt s i = some e) : i < s.length := by
  by_contra hge
  rw [slotAt_of_ge s i (by omega)] at h
  exact Option.noConfusion h

theorem slotAt_set_self (s : List (Option (Entry K V))) (j : Nat)
    (x : Option (Entry K V)) (h : j < s.length) : slotAt (s.set j x) j = x := by
  rw [slotAt_eq_getElem?, List.getElem?_set_self' (l := s)]
  simp [List.getElem?_eq_getElem h]

theorem slotAt_set_ne (s : List (Option (Entry K V))) (i j : Nat)
    (x : Option (Entry K V)) (h : i ≠ j) : slotAt (s.set i x) j = slotAt s j := by
  rw [slotAt_eq_getElem?, slotAt_eq_getElem?, List.getElem?_set_ne h]

theorem slotAt_replicate_none (n i : Nat) :
    slotAt (List.replicate n (none : Option (Entry K V))) i = none := by
  rw [slotAt_eq_getElem?]
  rcases Nat.lt_or_ge i n with h | h
  · have hl : i < (List.replicate n (none : Option (Entry K V))).length := by simpa using h
    rw [List.getElem?_eq_getElem hl, List.getElem_replicate]
    rfl
  · have hl : (List.replicate n (none : Option (Entry K V))).length ≤ i := by simpa using h
    rw [List.getElem?_eq_none hl]
    rfl

/-! ## Occupancy counting and entry membership -/

theorem occCount_nil : occCount ([] : List (Option (Entry K V))) = 0 := rfl

theorem occCount_cons_none (s : List (Option (Entry K V))) :
    occCount (none :: s) = occCount s := rfl

theorem occCount_cons_some (e : Entry K V) (s : List (Option (Entry K V))) :
    occCount (some e :: s) = occCount s + 1 := by
  simp [occCount, List.filterMap_cons]

theorem occCount_replicate (n : Nat) :
    occCount (List.replicate n (none : Option (Entry K V))) = 0 := by
  induction n with
  | zero => rfl
  | succ m ih => simpa [List.replicate_succ, occCount_cons_none] using ih

theorem occCount_le_length (s : List (Option (Entry K V))) : occCount s ≤ s.length := by
  induction s with
  | nil => simp [occCount_nil]
  | cons o rest ih =>
    cases o with
    | none => simpa [occCount_cons_none] using Nat.le_succ_of_le ih
    | some e => simpa [occCount_cons_some] using ih

theorem occCount_set_insert (s : List (Option (Entry K V))) (j : Nat) (e : Entry K V)
    (hj : slotAt s j = none) (hlt : j < s.length) :
    occCount (s.set j (some e)) = occCount s + 1 := by
  induction s generalizing j with
  | nil => simp at hlt
  | cons o rest ih =>
    cases j with
    | zero =>
      have : o = none := by simpa [slotAt, List.getD] using hj
      subst this
      simp [List.set, occCount_cons_some, occCount_cons_none]
    | succ m =>
      have hj' : slotAt rest m = none := by simpa [slotAt, List.getD] using hj
      have hlt' : m < rest.length := by simpa using hlt
      cases o with
      | none => simp [List.set, occCount_cons_none, ih m hj' hlt']
      | some e' => simp [List.set, occCount_cons_some, ih m hj' hlt']

theorem occCount_set_update (s : List (Option (Entry K V))) (j : Nat)
    (e e' : Entry K V) (hj : slotAt s j = some e) :
    occCount (s.set j (some e')) = occCount s := by
  induction s generalizing j with
  | nil => simp [occCount_nil]
  | cons o rest ih =>
    cases j with
    | zero =>
      have : o = some e := by simpa [slotAt, List.getD] using hj
      subst this
      simp [List.set, occCount_cons_some]
    | succ m =>
      have hj' : slotAt rest m = some e := by simpa [slotAt, List.getD] using hj
      cases o with
      | none => simp [List.set, occCount_cons_none, ih m hj']
      | some e'' => simp [List.set, occCount_cons_some, ih m hj']

theorem slot_isSome_of_set_some {s : List (Option (Entry K V))} {i : Nat}
    (j : Nat) (e : Entry K V) (h : slotAt s i ≠ none) :
    slotAt (s.set j (some e)) i ≠ none := by
  by_cases hij : j = i
  · subst hij
    have hlt : j < s.length := by
      rcases Option.ne_none_iff_exists'.mp h with ⟨e', he'⟩
      exact slotAt_some_lt he'
    rw [slotAt_set_self s j _ hlt]
    simp
  · rwa [slotAt_set_ne s j i _ hij]

theorem mem_filterMap_iff_slot (s : List (Option (Entry K V))) (e : Entry K V) :
    e ∈ s.filterMap id ↔ ∃ j, slotAt s j = some e := by
  induction s with
  | nil =>
    simp only [List.filterMap_nil, List.not_mem_nil, false_iff, not_exists]
    intro j
    rw [slotAt_of_ge _ j (by simp)]
    simp
  | cons o rest ih =>
    cases o with
    | none =>
      have hstep : List.filterMap id (none :: rest) = List.filterMap id rest := rfl
      rw [hstep, ih]
      constructor
      · rintro ⟨j, hj⟩
        exact ⟨j + 1, by simpa [slotAt, List.getD] using hj⟩
      · rintro ⟨j, hj⟩
        cases j with
        | zero => simp [slotAt, List.getD] at hj
        | succ m => exact ⟨m, by simpa [slotAt, List.getD] using hj⟩
    | some e' =>
      have hstep : List.filterMap id (some e' :: rest) = e' :: List.filterMap id rest := rfl
      rw [hstep]
      simp only [List.mem_cons, ih]
      constructor
      · rintro (rfl | ⟨j, hj⟩)
        · exact ⟨0, by simp [slotAt, List.getD]⟩
        · exact ⟨j + 1, by simpa [slotAt, List.getD] using hj⟩
      · rintro ⟨j, hj⟩
        cases j with
        | zero =>
          left
          have : some e' = some e := by simpa [slotAt, List.getD] using hj
          exact (Option.some_injective _ this).symm
        | succ m => exact Or.inr ⟨m, by simpa [slotAt, List.getD] using hj⟩

theorem filterMap_set_insert_perm (s : List (Option (Entry K V))) (j : Nat)
    (e : Entry K V) (hj : slotAt s j = none) (hlt : j < s.length) :
    List.Perm ((s.set j (some e)).filterMap id) (e :: s.filterMap id) := by
  induction s generalizing j with
  | nil => simp at hlt
  | cons o rest ih =>
    cases j with
    | zero =>
      have : o = none := by simpa [slotAt, List.getD] using hj
      subst this
      simp [List.set, List.filterMap_cons]
    | succ m =>
      have hj' : slotAt rest m = none := by simpa [slotAt, List.getD] using hj
      have hlt' : m < rest.length := by simpa using hlt
      cases o with
      | none => simpa [List.set, List.filterMap_cons] using ih m hj' hlt'
      | some e' =>
        simp only [List.set, List.filterMap_cons_some (f := id) (b := e') rfl]
        exact ((ih m hj' hlt').cons e').trans (List.Perm.swap e e' _)

theorem exists_empty_slot (s : List (Option (Entry K V)))
    (h : occCount s < s.length) : ∃ j < s.length, slotAt s j = none := by
  induction s with
  | nil => simp at h
  | cons o rest ih =>
    cases o with
    | none => exact ⟨0, by simp, by simp [slotAt, List.getD]⟩
    | some e =>
      rw [occCount_cons_some] at h
      obtain ⟨j, hj, hnone⟩ := ih (by simpa using h)
      exact ⟨j + 1, by simpa using hj, by simpa [slotAt, List.getD] using hnone⟩

theorem keys_eq_map (tab : Table K V) :
    tab.keys = (entriesOf tab).map Entry.key := by
  unfold Table.keys entriesOf
  induction tab.table with
  | nil => rfl
  | cons o rest ih =>
    cases o with
    | none => simpa [List.filterMap_cons] using ih
    | some e => simpa [List.filterMap_cons] using ih

theorem values_eq_map (tab : Table K V) :
    tab.values = (entriesOf tab).map Entry.value := by
  unfold Table.values entriesOf
  induction tab.table with
  | nil => rfl
  | cons o rest ih =>
    cases o with
    | none => simpa [List.filterMap_cons] using ih
    | some e => simpa [List.filterMap_cons] using ih

/-! ## The probe loop -/

theorem probeAux_succ_none (eqs : K → K → Bool) (s : List (Option (Entry K V)))
    (cap : Nat) (k : K) (fuel i c : Nat) (h : slotAt s i = none) :
    probeAux eqs s cap k (fuel + 1) i c = .empty i c := by
  unfold probeAux
  rw [h]

theorem probeAux_succ_found (eqs : K → K → Bool) (s : List (Option (Entry K V)))
    (cap : Nat) (k : K) (fuel i c : Nat) (e : Entry K V) (h : slotAt s i = some e)
    (hm : eqs e.key k = true) :
    probeAux eqs s cap k (fuel + 1) i c = .found i e c := by
  unfold probeAux
  rw [h]
  simp [hm]

theorem probeAux_succ_step (eqs : K → K → Bool) (s : List (Option (Entry K V)))
    (cap : Nat) (k : K) (fuel i c : Nat) (e : Entry K V) (h : slotAt s i = some e)
    (hm : eqs e.key k = false) :
    probeAux eqs s cap k (fuel + 1) i c =
      probeAux eqs s cap k fuel (nextIndex cap i) (c + 1) := by
  unfold probeAux
  rw [h]
  simp [hm]
  rw [probeAux.eq_def]

theorem isStop_false_elim {eqs : K → K → Bool} {s : List (Option (Entry K V))}
    {k : K} {i : Nat} (h : isStop eqs s k i = false) :
    ∃ e, slotAt s i = some e ∧ eqs e.key k = false := by
  unfold isStop at h
  rcases he : slotAt s i with _ | e
  · rw [he] at h
    simp at h
  · rw [he] at h
    exact ⟨e, rfl, h⟩

theorem probeAux_advance (eqs : K → K → Bool) (s : List (Option (Entry K V)))
    (cap : Nat) (k : K) (d : Nat) :
    ∀ i0 c fuel, 0 < cap → i0 < cap →
      (∀ t, t < d → isStop eqs s k (idx cap i0 t) = false) →
      probeAux eqs s cap k (d + fuel) i0 c =
        probeAux eqs s cap k fuel (idx cap i0 d) (c + d) := by
  induction d with
  | zero =>
    intro i0 c fuel _ hi0 _
    rw [idx_zero cap i0 hi0, Nat.zero_add, Nat.add_zero]
  | succ d ih =>
    intro i0 c fuel hc hi0 hstops
    have h0 : isStop eqs s k i0 = false := by
      have h := hstops 0 (by omega)
      rwa [idx_zero cap i0 hi0] at h
    obtain ⟨e, he, hne⟩ := isStop_false_elim h0
    have h1 : d + 1 + fuel = d + fuel + 1 := by omega
    rw [h1, probeAux_succ_step eqs s cap k (d + fuel) i0 c e he hne]
    have hnext : nextIndex cap i0 = idx cap i0 1 := by
      have h := nextIndex_idx cap i0 0 hc
      rwa [idx_zero cap i0 hi0] at h
    rw [hnext]
    have hstops' : ∀ t, t < d → isStop eqs s k (idx cap (idx cap i0 1) t) = false := by
      intro t ht
      rw [idx_idx cap i0 1 t]
      exact hstops (1 + t) (by omega)
    rw [ih (idx cap i0 1) (c + 1) fuel hc (idx_lt cap i0 1 hc) hstops', idx_idx cap i0 1 d]
    have h2 : 1 + d = d + 1 := by omega
    have h3 : c + 1 + d = c + (d + 1) := by omega
    rw [h2, h3]

/-- Full characterisation of the probe run by `get`, `has` and `put`: whenever the
slot array has at least one empty slot, the probe stops at the first index (along
the wrapping scan from the start index) that is empty or holds a matching key,
having bumped the collision counter once per preceding (occupied, non-matching)
slot.  In particular the loop terminates within `capacity` iterations. -/
theorem runProbe_spec (tab : Table K V) (k : K)
    (hlen : tab.table.length = tab.capacity)
    (hocc : occCount tab.table < tab.capacity) :
    ∃ d, d < tab.capacity ∧
      (∀ t, t < d →
        isStop tab.equals tab.table k (idx tab.capacity (tab.start k) t) = false) ∧
      ((slotAt tab.table (idx tab.capacity (tab.start k) d) = none ∧
          runProbe tab k = .empty (idx tab.capacity (tab.start k) d) d) ∨
        (∃ e, slotAt tab.table (idx tab.capacity (tab.start k) d) = some e ∧
          tab.equals e.key k = true ∧
          runProbe tab k = .found (idx tab.capacity (tab.start k) d) e d)) := by
  have hc : 0 < tab.capacity := Nat.lt_of_le_of_lt (Nat.zero_le _) hocc
  have hi0 : tab.start k < tab.capacity := Nat.mod_lt _ hc
  obtain ⟨j, hjlen, hjnone⟩ := exists_empty_slot tab.table (by omega)
  have hjcap : j < tab.capacity := by omega
  have hex : ∃ t, isStop tab.equals tab.table k (idx tab.capacity (tab.start k) t)
      = true := by
    refine ⟨distTo tab.capacity (tab.start k) j, ?_⟩
    rw [idx_distTo tab.capacity (tab.start k) j hi0 hjcap]
    unfold isStop
    rw [hjnone]
  set d := Nat.find hex with hdDef
  have hd : isStop tab.equals tab.table k (idx tab.capacity (tab.start k) d)
      = true := Nat.find_spec hex
  have hdlt : d < tab.capacity := by
    have h1 : d ≤ distTo tab.capacity (tab.start k) j := by
      apply Nat.find_min' hex
      rw [idx_distTo tab.capacity (tab.start k) j hi0 hjcap]
      unfold isStop
      rw [hjnone]
    have h2 := distTo_lt tab.capacity (tab.start k) j hc
    omega
  have hmin : ∀ t, t < d →
      isStop tab.equals tab.table k (idx tab.capacity (tab.start k) t) = false := by
    intro t ht
    have h := Nat.find_min hex ht
    simpa using h
  refine ⟨d, hdlt, hmin, ?_⟩
  have hadv := probeAux_advance tab.equals tab.table tab.capacity k d
    (tab.start k) 0 (tab.capacity - d) hc hi0 hmin
  rw [show d + (tab.capacity - d) = tab.capacity from by omega, Nat.zero_add] at hadv
  have hrun : runProbe tab k =
      probeAux tab.equals tab.table tab.capacity k (tab.capacity - d)
        (idx tab.capacity (tab.start k) d) d := hadv
  have hsplit : tab.capacity - d = (tab.capacity - d - 1) + 1 := by omega
  rcases hslot : slotAt tab.table (idx tab.capacity (tab.start k) d) with _ | e
  · left
    refine ⟨rfl, ?_⟩
    rw [hrun, hsplit]
    exact probeAux_succ_none tab.equals tab.table tab.capacity k _ _ _ hslot
  · right
    have hm : tab.equals e.key k = true := by
      unfold isStop at hd
      rw [hslot] at hd
      exact hd
    refine ⟨e, rfl, hm, ?_⟩
    rw [hrun, hsplit]
    exact probeAux_succ_found tab.equals tab.table tab.capacity k _ _ _ e hslot hm

/-! ## Consequences of the probe characterisation -/

theorem swf_occ_lt (tab : Table K V) (hswf : SWF tab) :
    occCount tab.table < tab.capacity := by
  obtain ⟨hlen, hsize, hload, hcap⟩ := hswf
  omega

theorem swf_cap_pos (tab : Table K V) (hswf : SWF tab) : 0 < tab.capacity := by
  obtain ⟨hlen, hsize, hload, hcap⟩ := hswf
  have : 0 < INITIAL_CAPACITY * RESIZE_FACTOR ^ tab.rehashes :=
    Nat.mul_pos (by norm_num [INITIAL_CAPACITY]) (Nat.pos_pow_of_pos _ (by norm_num [RESIZE_FACTOR]))
  omega

theorem start_lt (tab : Table K V) (k : K) (hc : 0 < tab.capacity) :
    tab.start k < tab.capacity :=
  Nat.mod_lt _ hc

theorem runProbe_ne_diverge (tab : Table K V) (k : K)
    (hlen : tab.table.length = tab.capacity) (hocc : occCount tab.table < tab.capacity) :
    runProbe tab k ≠ .diverge := by
  obtain ⟨d, _, _, hcase⟩ := runProbe_spec tab k hlen hocc
  rcases hcase with ⟨_, hrun⟩ | ⟨e, _, _, hrun⟩ <;> rw [hrun] <;> intro h <;>
    exact ProbeRes.noConfusion h

theorem probe_empty_elim {tab : Table K V} {k : K} {j d : Nat}
    (hlen : tab.table.length = tab.capacity) (hocc : occCount tab.table < tab.capacity)
    (h : runProbe tab k = .empty j d) :
    j = idx tab.capacity (tab.start k) d ∧ d < tab.capacity ∧
      slotAt tab.table j = none ∧
      (∀ t, t < d →
        isStop tab.equals tab.table k (idx tab.capacity (tab.start k) t) = false) := by
  obtain ⟨d', hd'lt, hmin, hcase⟩ := runProbe_spec tab k hlen hocc
  rcases hcase with ⟨hnone, hrun⟩ | ⟨e, _, _, hrun⟩
  · rw [h] at hrun
    obtain ⟨hj, hd⟩ := ProbeRes.empty.inj hrun.symm
    subst hj
    subst hd
    exact ⟨rfl, hd'lt, hnone, hmin⟩
  · rw [h] at hrun
    exact absurd hrun.symm (by intro hcon; exact ProbeRes.noConfusion hcon)

theorem probe_found_elim {tab : Table K V} {k : K} {j d : Nat} {e : Entry K V}
    (hlen : tab.table.length = tab.capacity) (hocc : occCount tab.table < tab.capacity)
    (h : runProbe tab k = .found j e d) :
    j = idx tab.capacity (tab.start k) d ∧ d < tab.capacity ∧
      slotAt tab.table j = some e ∧ tab.equals e.key k = true ∧
      (∀ t, t < d →
        isStop tab.equals tab.table k (idx tab.capacity (tab.start k) t) = false) := by
  obtain ⟨d', hd'lt, hmin, hcase⟩ := runProbe_spec tab k hlen hocc
  rcases hcase with ⟨_, hrun⟩ | ⟨e', hsome, hm, hrun⟩
  · rw [h] at hrun
    exact absurd hrun.symm (by intro hcon; exact ProbeRes.noConfusion hcon)
  · rw [h] at hrun
    obtain ⟨hj, he, hd⟩ := ProbeRes.found.inj hrun.symm
    subst hj
    subst hd
    subst he
    exact ⟨rfl, hd'lt, hsome, hm, hmin⟩

theorem containsKey_iff_entry (tab : Table K V) (k : K) :
    containsKey tab k ↔ ∃ e ∈ entriesOf tab, tab.equals e.key k = true := by
  unfold containsKey
  constructor
  · rintro ⟨j, hj, hmatch⟩
    rcases hs : slotAt tab.table j with _ | e
    · rw [hs] at hmatch
      simp [slotMatches] at hmatch
    · rw [hs] at hmatch
      refine ⟨e, ?_, hmatch⟩
      exact (mem_filterMap_iff_slot tab.table e).mpr ⟨j, hs⟩
  · rintro ⟨e, hmem, heq⟩
    obtain ⟨j, hj⟩ := (mem_filterMap_iff_slot tab.table e).mp hmem
    exact ⟨j, slotAt_some_lt hj, by rw [hj]; exact heq⟩

theorem contains_of_found {tab : Table K V} {k : K} {j d : Nat} {e : Entry K V}
    (hlen : tab.table.length = tab.capacity) (hocc : occCount tab.table < tab.capacity)
    (h : runProbe tab k = .found j e d) : containsKey tab k := by
  obtain ⟨_, _, hsome, hm, _⟩ := probe_found_elim hlen hocc h
  exact (containsKey_iff_entry tab k).mpr
    ⟨e, (mem_filterMap_iff_slot tab.table e).mpr ⟨j, hsome⟩, hm⟩

theorem not_contains_of_empty {tab : Table K V} {k : K} {j d : Nat}
    (hlen : tab.table.length = tab.capacity) (hocc : occCount tab.table < tab.capacity)
    (hpwf : PWF tab)
    (hcons : ∀ a b, tab.equals a b = true → tab.hash a = tab.hash b)
    (h : runProbe tab k = .empty j d) : ¬containsKey tab k := by
  obtain ⟨hj, hdlt, hnone, hmin⟩ := probe_empty_elim hlen hocc h
  subst hj
  rintro ⟨j', hj'len, hmatch⟩
  rcases hs : slotAt tab.table j' with _ | e'
  · rw [hs] at hmatch
    simp [slotMatches] at hmatch
  · rw [hs] at hmatch
    have hc : 0 < tab.capacity := by omega
    have hi0 : tab.start k < tab.capacity := start_lt tab k hc
    have hj'cap : j' < tab.capacity := by omega
    have hstart : tab.start e'.key = tab.start k := by
      unfold Table.start
      rw [hcons e'.key k hmatch]
    have hidx : idx tab.capacity (tab.start k) (distTo tab.capacity (tab.start k) j')
        = j' := idx_distTo tab.capacity (tab.start k) j' hi0 hj'cap
    rcases Nat.lt_trichotomy (distTo tab.capacity (tab.start k) j') d with hlt | heq | hgt
    · have hstop := hmin _ hlt
      rw [hidx] at hstop
      unfold isStop at hstop
      rw [hs] at hstop
      have hstop' : tab.equals e'.key k = false := hstop
      have hmatch' : tab.equals e'.key k = true := hmatch
      rw [hmatch'] at hstop'
      exact Bool.noConfusion hstop'
    · rw [← heq, hidx] at hnone
      rw [hnone] at hs
      exact Option.noConfusion hs
    · have hchain := hpwf.1 j' e' hs
      rw [hstart] at hchain
      exact hchain d hgt hnone

/-! ## Unfolding the operations -/

theorem loadCheck_false_of (s cap : Nat) (h : 4 * s < 3 * cap) :
    loadCheck s cap = false := by
  simp [loadCheck]
  omega

theorem loadCheck_true_of (s cap : Nat) (h : 3 * cap ≤ 4 * s) :
    loadCheck s cap = true := by
  simp [loadCheck]
  omega

theorem get_found {tab : Table K V} {k : K} {j d : Nat} {e : Entry K V}
    (h : runProbe tab k = .found j e d) :
    Table.get tab k = .ok (e.value, bumpColl tab d) := by
  unfold Table.get
  rw [h]

theorem get_empty {tab : Table K V} {k : K} {j d : Nat}
    (h : runProbe tab k = .empty j d) : Table.get tab k = .abort := by
  unfold Table.get
  rw [h]

theorem has_found {tab : Table K V} {k : K} {j d : Nat} {e : Entry K V}
    (h : runProbe tab k = .found j e d) :
    Table.has tab k = .ok (true, bumpColl tab d) := by
  unfold Table.has
  rw [h]

theorem has_empty {tab : Table K V} {k : K} {j d : Nat}
    (h : runProbe tab k = .empty j d) :
    Table.has tab k = .ok (false, bumpColl tab d) := by
  unfold Table.has
  rw [h]

theorem putFuel_zero : Table.putFuel (K := K) (V := V) 0 = putWith (fun _ => .hang) :=
  rfl

theorem putFuel_succ (f : Nat) :
    Table.putFuel (K := K) (V := V) (f + 1) = putWith (doRehash (Table.putFuel f)) :=
  rfl

theorem putWith_found {tab : Table K V} {k : K} {v : V} {j d : Nat} {e : Entry K V}
    (rf : Table K V → CResult (Table K V)) (h : runProbe tab k = .found j e d) :
    putWith rf tab k v = .ok (some e.value, updateAt tab j d e v) := by
  unfold putWith
  rw [h]

theorem putWith_empty_noload {tab : Table K V} {k : K} {v : V} {j d : Nat}
    (rf : Table K V → CResult (Table K V)) (h : runProbe tab k = .empty j d)
    (hl : loadCheck (tab.size + 1) tab.capacity = false) :
    putWith rf tab k v = .ok (none, insertAt tab j d k v) := by
  unfold putWith
  rw [h]
  simp [hl]

theorem putWith_empty_load {tab : Table K V} {k : K} {v : V} {j d : Nat}
    {t2 : Table K V} (rf : Table K V → CResult (Table K V))
    (h : runProbe tab k = .empty j d)
    (hl : loadCheck (tab.size + 1) tab.capacity = true)
    (ht2 : rf (insertAt tab j d k v) = .ok t2) :
    putWith rf tab k v = .ok (none, t2) := by
  unfold putWith
  rw [h]
  simp [hl, ht2]

theorem putFuel_found {tab : Table K V} {k : K} {v : V} {j d : Nat} {e : Entry K V}
    (f : Nat) (h : runProbe tab k = .found j e d) :
    Table.putFuel f tab k v = .ok (some e.value, updateAt tab j d e v) := by
  cases f with
  | zero => rw [putFuel_zero]; exact putWith_found _ h
  | succ n => rw [putFuel_succ]; exact putWith_found _ h

theorem putFuel_empty_noload {tab : Table K V} {k : K} {v : V} {j d : Nat}
    (f : Nat) (h : runProbe tab k = .empty j d)
    (hl : loadCheck (tab.size + 1) tab.capacity = false) :
    Table.putFuel f tab k v = .ok (none, insertAt tab j d k v) := by
  cases f with
  | zero => rw [putFuel_zero]; exact putWith_empty_noload _ h hl
  | succ n => rw [putFuel_succ]; exact putWith_empty_noload _ h hl

theorem putFuel_empty_load {tab : Table K V} {k : K} {v : V} {j d : Nat}
    {t2 : Table K V} (f : Nat) (h : runProbe tab k = .empty j d)
    (hl : loadCheck (tab.size + 1) tab.capacity = true)
    (ht2 : doRehash (Table.putFuel f) (insertAt tab j d k v) = .ok t2) :
    Table.putFuel (f + 1) tab k v = .ok (none, t2) := by
  rw [putFuel_succ]
  exact putWith_empty_load _ h hl ht2

/-! ## Structural well-formedness through re-insertion and rehash -/

theorem reinsertList_nil (putF : Table K V → K → V → CResult (Option V × Table K V))
    (t : Table K V) : reinsertList putF t [] = .ok t := rfl

theorem reinsertList_cons_none
    (putF : Table K V → K → V → CResult (Option V × Table K V)) (t : Table K V)
    (rest : List (Option (Entry K V))) :
    reinsertList putF t (none :: rest) = reinsertList putF t rest := rfl

theorem reinsertList_cons_some
    {putF : Table K V → K → V → CResult (Option V × Table K V)} {t t1 : Table K V}
    {e : Entry K V} {r : Option V} (rest : List (Option (Entry K V)))
    (h : putF t e.key e.value = .ok (r, t1)) :
    reinsertList putF t (some e :: rest) = reinsertList putF t1 rest := by
  show (match putF t e.key e.value with
    | .ok (_, tab') => reinsertList putF tab' rest
    | .abort => .abort
    | .hang => .hang) = reinsertList putF t1 rest
  rw [h]

/-- Re-inserting the old slots into a freshly doubled table never aborts, hangs or
re-triggers a rehash: the fold returns a table of the same capacity whose `size`
again counts the occupied slots, with `size` bounded by the number of re-inserted
entries.  Holds with no assumption on the behaviour functions. -/
theorem reinsertList_swf (f c : Nat) (hc : 0 < c) (L : List (Option (Entry K V))) :
    ∀ (t : Table K V),
      t.capacity = c * RESIZE_FACTOR →
      t.table.length = t.capacity →
      t.size = occCount t.table →
      t.size + occCount L ≤ c →
      ∃ t', reinsertList (Table.putFuel f) t L = .ok t' ∧
        t'.capacity = t.capacity ∧ t'.table.length = t'.capacity ∧
        t'.size = occCount t'.table ∧ t'.size ≤ t.size + occCount L ∧
        t'.rehashes = t.rehashes ∧ t'.hash = t.hash ∧ t'.equals = t.equals ∧
        t'.print = t.print := by
  induction L with
  | nil =>
    intro t hcap hlen hsize hbound
    exact ⟨t, reinsertList_nil _ t, rfl, hlen, hsize, by simp [occCount_nil], rfl, rfl,
      rfl, rfl⟩
  | cons o rest ih =>
    intro t hcap hlen hsize hbound
    cases o with
    | none =>
      rw [occCount_cons_none] at hbound
      obtain ⟨t', hrun, h1, h2, h3, h4, h5, h6, h7, h8⟩ := ih t hcap hlen hsize hbound
      exact ⟨t', by rw [reinsertList_cons_none]; exact hrun, h1, h2, h3,
        by rw [occCount_cons_none]; exact h4, h5, h6, h7, h8⟩
    | some e =>
      rw [occCount_cons_some] at hbound
      have hRF : RESIZE_FACTOR = 2 := rfl
      have hocc : occCount t.table < t.capacity := by
        rw [← hsize, hcap, hRF]
        omega
      obtain ⟨d, hdlt, hmin, hcase⟩ := runProbe_spec t e.key hlen hocc
      rcases hcase with ⟨hnone, hrun⟩ | ⟨e'', hsome, hm, hrun⟩
      · -- insert path; the load threshold is strictly below double the old capacity
        have hl : loadCheck (t.size + 1) t.capacity = false := by
          apply loadCheck_false_of
          rw [hcap, hRF]
          omega
        have hput := putFuel_empty_noload (v := e.value) f hrun hl
        have hjlt : idx t.capacity (t.start e.key) d < t.table.length := by
          rw [hlen]
          exact idx_lt _ _ _ (by omega)
        have hlen1 : (insertAt t (idx t.capacity (t.start e.key) d) d e.key
            e.value).table.length =
            (insertAt t (idx t.capacity (t.start e.key) d) d e.key e.value).capacity := by
          simp [insertAt, hlen]
        have hsize1 : (insertAt t (idx t.capacity (t.start e.key) d) d e.key
            e.value).size = occCount (insertAt t (idx t.capacity (t.start e.key) d) d
              e.key e.value).table := by
          show t.size + 1 = occCount (t.table.set _ (some ⟨e.key, e.value⟩))
          rw [occCount_set_insert t.table _ _ hnone hjlt, hsize]
        obtain ⟨t', hrun', h1, h2, h3, h4, h5, h6, h7, h8⟩ :=
          ih (insertAt t (idx t.capacity (t.start e.key) d) d e.key e.value)
            (by simp [insertAt, hcap]) hlen1 hsize1
            (by show t.size + 1 + occCount rest ≤ c; omega)
        refine ⟨t', ?_, h1, h2, h3, ?_, h5, h6, h7, h8⟩
        · rw [reinsertList_cons_some rest hput]
          exact hrun'
        · rw [occCount_cons_some]
          have h4' : t'.size ≤ t.size + 1 + occCount rest := h4
          omega
      · -- update path: size and occupancy unchanged
        have hput := putFuel_found (v := e.value) f hrun
        have hsize1 : (updateAt t (idx t.capacity (t.start e.key) d) d e''
            e.value).size = occCount (updateAt t (idx t.capacity (t.start e.key) d) d
              e'' e.value).table := by
          show t.size = occCount (t.table.set _ (some ⟨e''.key, e.value⟩))
          rw [occCount_set_update t.table _ e'' _ hsome, hsize]
        obtain ⟨t', hrun', h1, h2, h3, h4, h5, h6, h7, h8⟩ :=
          ih (updateAt t (idx t.capacity (t.start e.key) d) d e'' e.value)
            (by simp [updateAt, hcap]) (by simp [updateAt, hlen]) hsize1
            (by show t.size + occCount rest ≤ c; omega)
        refine ⟨t', ?_, h1, h2, h3, ?_, h5, h6, h7, h8⟩
        · rw [reinsertList_cons_some rest hput]
          exact hrun'
        · rw [occCount_cons_some]
          have h4' : t'.size ≤ t.size + occCount rest := h4
          omega

/-- A triggered rehash runs to completion: it doubles the capacity, increments the
`rehashes` counter by exactly one (the re-insertion never re-triggers), and restores
the size/occupancy correspondence. -/
theorem doRehash_swf (f : Nat) (tab1 : Table K V)
    (hlen : tab1.table.length = tab1.capacity)
    (hsize : tab1.size = occCount tab1.table)
    (hc : 0 < tab1.capacity)
    (hle : tab1.size ≤ tab1.capacity) :
    ∃ t2, doRehash (Table.putFuel f) tab1 = .ok t2 ∧
      t2.capacity = tab1.capacity * RESIZE_FACTOR ∧
      t2.table.length = t2.capacity ∧ t2.size = occCount t2.table ∧
      t2.size ≤ tab1.size ∧ t2.rehashes = tab1.rehashes + 1 ∧
      t2.hash = tab1.hash ∧ t2.equals = tab1.equals ∧ t2.print = tab1.print := by
  obtain ⟨t', hrun, h1, h2, h3, h4, h5, h6, h7, h8⟩ :=
    reinsertList_swf (K := K) (V := V) f tab1.capacity hc tab1.table
      { tab1 with capacity := tab1.capacity * RESIZE_FACTOR,
                  table := List.replicate (tab1.capacity * RESIZE_FACTOR) none,
                  size := 0 }
      rfl (by simp) (by rw [occCount_replicate])
      (by show 0 + occCount tab1.table ≤ tab1.capacity; rw [← hsize]; omega)
  refine ⟨{ t' with rehashes := t'.rehashes + 1 }, ?_, ?_, ?_, ?_, ?_, ?_, ?_, ?_, ?_⟩
  · unfold doRehash
    rw [hrun]
  · exact h1
  · exact h2
  · exact h3
  · show t'.size ≤ tab1.size
    have h4' : t'.size ≤ 0 + occCount tab1.table := h4
    omega
  · show t'.rehashes + 1 = tab1.rehashes + 1
    rw [h5]
  · exact h6
  · exact h7
  · exact h8

/-- The freshly created table is structurally well-formed. -/
theorem create_swf (h : K → Int) (eqs : K → K → Bool) (pr : K → V → Unit) :
    SWF (Table.create h eqs pr) := by
  refine ⟨?_, ?_, ?_, ?_⟩
  · simp [Table.create]
  · show 0 = occCount (List.replicate INITIAL_CAPACITY none)
    rw [occCount_replicate]
  · show 4 * 0 < 3 * INITIAL_CAPACITY
    norm_num [INITIAL_CAPACITY]
  · show INITIAL_CAPACITY = INITIAL_CAPACITY * RESIZE_FACTOR ^ 0
    rw [pow_zero, Nat.mul_one]

theorem swf_bumpColl (tab : Table K V) (d : Nat) (h : SWF tab) :
    SWF (bumpColl tab d) := h

/-- Every successful `put` preserves structural well-formedness and the behaviour
functions; the load factor is strictly below the threshold when `put` returns. -/
theorem put_swf (tab : Table K V) (k : K) (v : V) (hswf : SWF tab) :
    ∃ r tab', Table.put tab k v = .ok (r, tab') ∧ SWF tab' ∧
      tab'.hash = tab.hash ∧ tab'.equals = tab.equals ∧ tab'.print = tab.print := by
  obtain ⟨hlen, hsize, hload, hcapeq⟩ := hswf
  have hocc : occCount tab.table < tab.capacity := by omega
  have hc : 0 < tab.capacity := by omega
  obtain ⟨d, hdlt, hmin, hcase⟩ := runProbe_spec tab k hlen hocc
  rcases hcase with ⟨hnone, hrun⟩ | ⟨e, hsome, hm, hrun⟩
  · -- insert path
    have hjlt : idx tab.capacity (tab.start k) d < tab.table.length := by
      rw [hlen]
      exact idx_lt _ _ _ hc
    rcases hl : loadCheck (tab.size + 1) tab.capacity with _ | _
    · -- no growth
      refine ⟨none, insertAt tab (idx tab.capacity (tab.start k) d) d k v,
        putFuel_empty_noload 2 hrun hl, ⟨?_, ?_, ?_, ?_⟩, rfl, rfl, rfl⟩
      · simp [insertAt, hlen]
      · show tab.size + 1 = occCount (tab.table.set _ (some ⟨k, v⟩))
        rw [occCount_set_insert tab.table _ _ hnone hjlt, hsize]
      · show 4 * (tab.size + 1) < 3 * tab.capacity
        have : ¬ 3 * tab.capacity ≤ 4 * (tab.size + 1) := by
          intro hcon
          rw [loadCheck_true_of _ _ hcon] at hl
          exact Bool.noConfusion hl
        omega
      · exact hcapeq
    · -- growth: exactly one rehash, performed synchronously
      obtain ⟨t2, ht2, g1, g2, g3, g4, g5, g6, g7, g8⟩ :=
        doRehash_swf 1 (insertAt tab (idx tab.capacity (tab.start k) d) d k v)
          (by simp [insertAt, hlen])
          (by show tab.size + 1 = occCount (tab.table.set _ (some ⟨k, v⟩))
              rw [occCount_set_insert tab.table _ _ hnone hjlt, hsize])
          hc (by show tab.size + 1 ≤ tab.capacity; omega)
      refine ⟨none, t2, putFuel_empty_load 1 hrun hl ht2, ⟨g2, g3, ?_, ?_⟩, g6, g7, g8⟩
      · have hRF : RESIZE_FACTOR = 2 := rfl
        have hc2 : t2.capacity = tab.capacity * 2 := by rw [g1, hRF]; rfl
        have hs2 : t2.size ≤ tab.size + 1 := g4
        omega
      · show t2.capacity = INITIAL_CAPACITY * RESIZE_FACTOR ^ t2.rehashes
        rw [g1, g5]
        show tab.capacity * RESIZE_FACTOR =
          INITIAL_CAPACITY * RESIZE_FACTOR ^ (tab.rehashes + 1)
        rw [hcapeq, pow_succ, Nat.mul_assoc]
  · -- update path
    refine ⟨some e.value, updateAt tab (idx tab.capacity (tab.start k) d) d e v,
      putFuel_found 2 hrun, ⟨?_, ?_, ?_, ?_⟩, rfl, rfl, rfl⟩
    · simp [updateAt, hlen]
    · show tab.size = occCount (tab.table.set _ (some ⟨e.key, v⟩))
      rw [occCount_set_update tab.table _ e _ hsome, hsize]
    · exact hload
    · exact hcapeq

/-- Every reachable table is structurally well-formed — with no assumption on the
caller-supplied hash and equality functions. -/
theorem reachable_swf (tab : Table K V) (h : Reachable tab) : SWF tab := by
  induction h with
  | created hf eqs pr => exact create_swf hf eqs pr
  | ofPut hre hput ih =>
    obtain ⟨r, tab', hok, hswf', _, _, _⟩ := put_swf _ _ _ ih
    rw [hput] at hok
    obtain h2 := CResult.ok.inj hok
    rw [h2]
    exact hswf'
  | ofGet hre hget ih =>
    revert hget
    unfold Table.get
    rcases hr : runProbe _ _ with ⟨j, e, d⟩ | ⟨j, d⟩ | _
    · intro hget
      obtain h2 := CResult.ok.inj hget
      rw [← h2]
      exact swf_bumpColl _ _ ih
    · intro hget
      exact absurd hget (by intro hcon; exact CResult.noConfusion hcon)
    · intro hget
      exact absurd hget (by intro hcon; exact CResult.noConfusion hcon)
  | ofHas hre hhas ih =>
    revert hhas
    unfold Table.has
    rcases hr : runProbe _ _ with ⟨j, e, d⟩ | ⟨j, d⟩ | _
    · intro hhas
      obtain h2 := CResult.ok.inj hhas
      rw [← h2]
      exact swf_bumpColl _ _ ih
    · intro hhas
      obtain h2 := CResult.ok.inj hhas
      rw [← h2]
      exact swf_bumpColl _ _ ih
    · intro hhas
      exact absurd hhas (by intro hcon; exact CResult.noConfusion hcon)

/-! ## The probe invariants through the operations -/

/-- Under the probe invariants, the entry the probe finds is the unique occupied
slot whose key is `equals`-equal to the probed key. -/
theorem found_unique {tab : Table K V} {k : K} {j d : Nat} {e : Entry K V}
    (hlen : tab.table.length = tab.capacity) (hocc : occCount tab.table < tab.capacity)
    (hpwf : PWF tab)
    (hsymm : ∀ a b, tab.equals a b = true → tab.equals b a = true)
    (htrans : ∀ a b c, tab.equals a b = true → tab.equals b c = true →
      tab.equals a c = true)
    (h : runProbe tab k = .found j e d)
    {j0 : Nat} {e0 : Entry K V} (hs0 : slotAt tab.table j0 = some e0)
    (hm0 : tab.equals e0.key k = true) : j0 = j ∧ e0 = e := by
  obtain ⟨hj, hdlt, hsome, hm, hmin⟩ := probe_found_elim hlen hocc h
  have heq : tab.equals e0.key e.key = true :=
    htrans e0.key k e.key hm0 (hsymm e.key k hm)
  have hjj := hpwf.2 j0 j e0 e hs0 hsome heq
  subst hjj
  rw [hs0] at hsome
  exact ⟨rfl, Option.some_injective _ hsome⟩

/-- The update path (`curr->value = value`) preserves the probe invariants: slot
occupancy and keys are unchanged. -/
theorem pwf_updateAt (tab : Table K V) (j d : Nat) (e : Entry K V) (v : V)
    (hpwf : PWF tab) (hsome : slotAt tab.table j = some e) :
    PWF (updateAt tab j d e v) := by
  have hjlen : j < tab.table.length := slotAt_some_lt hsome
  have hslot : ∀ i, slotAt (updateAt tab j d e v).table i =
      if i = j then some ⟨e.key, v⟩ else slotAt tab.table i := by
    intro i
    show slotAt (tab.table.set j (some ⟨e.key, v⟩)) i = _
    by_cases hij : i = j
    · subst hij
      rw [slotAt_set_self tab.table i _ hjlen, if_pos rfl]
    · rw [slotAt_set_ne tab.table j i _ (fun hcon => hij hcon.symm), if_neg hij]
  -- every occupied slot of the updated table holds the old slot's key
  have hkey : ∀ i e', slotAt (updateAt tab j d e v).table i = some e' →
      ∃ e'', slotAt tab.table i = some e'' ∧ e''.key = e'.key := by
    intro i e' h'
    rw [hslot i] at h'
    by_cases hij : i = j
    · rw [if_pos hij] at h'
      refine ⟨e, by rw [hij]; exact hsome, ?_⟩
      have := Option.some_injective _ h'
      rw [← this]
    · rw [if_neg hij] at h'
      exact ⟨e', h', rfl⟩
  constructor
  · intro j'' e'' hsome'' t ht
    obtain ⟨e₀, hs₀, hk₀⟩ := hkey j'' e'' hsome''
    have hchain := hpwf.1 j'' e₀ hs₀ t
    rw [hk₀] at hchain
    have hne := hchain ht
    intro hcon
    apply hne
    rcases hcc : slotAt tab.table
        (idx (updateAt tab j d e v).capacity
          ((updateAt tab j d e v).start e''.key) t) with _ | ec
    · exact hcc
    · exfalso
      rw [hslot] at hcon
      by_cases hij : idx (updateAt tab j d e v).capacity
          ((updateAt tab j d e v).start e''.key) t = j
      · rw [if_pos hij] at hcon
        exact Option.noConfusion hcon
      · rw [if_neg hij] at hcon
        rw [hcc] at hcon
        exact Option.noConfusion hcon
  · intro j1 j2 e1 e2 h1 h2 heq
    obtain ⟨f1, hf1, hk1⟩ := hkey j1 e1 h1
    obtain ⟨f2, hf2, hk2⟩ := hkey j2 e2 h2
    apply hpwf.2 j1 j2 f1 f2 hf1 hf2
    show tab.equals f1.key f2.key = true
    rw [hk1, hk2]
    exact heq

/-- The insert path preserves the probe invariants: the new entry sits at the end of
an unbroken run of occupied slots starting at its hash index, and its key is equal
to no stored key. -/
theorem pwf_insertAt (tab : Table K V) (k : K) (v : V) (d : Nat)
    (hlen : tab.table.length = tab.capacity) (hc : 0 < tab.capacity)
    (hpwf : PWF tab)
    (hsymm : ∀ a b, tab.equals a b = true → tab.equals b a = true)
    (hnone : slotAt tab.table (idx tab.capacity (tab.start k) d) = none)
    (hdlt : d < tab.capacity)
    (hmin : ∀ t, t < d →
      isStop tab.equals tab.table k (idx tab.capacity (tab.start k) t) = false)
    (hnc : ¬containsKey tab k) :
    PWF (insertAt tab (idx tab.capacity (tab.start k) d) d k v) := by
  have hi0 : tab.start k < tab.capacity := start_lt tab k hc
  have hjcap : idx tab.capacity (tab.start k) d < tab.capacity := idx_lt _ _ _ hc
  have hjlen : idx tab.capacity (tab.start k) d < tab.table.length := by omega
  have hslot : ∀ i, slotAt (insertAt tab (idx tab.capacity (tab.start k) d) d k
      v).table i =
      if i = idx tab.capacity (tab.start k) d then some ⟨k, v⟩
      else slotAt tab.table i := by
    intro i
    show slotAt (tab.table.set _ (some ⟨k, v⟩)) i = _
    by_cases hij : i = idx tab.capacity (tab.start k) d
    · rw [hij, slotAt_set_self tab.table _ _ hjlen, if_pos rfl]
    · rw [slotAt_set_ne tab.table _ i _ (fun hcon => hij hcon.symm), if_neg hij]
  constructor
  · intro j'' e'' hsome'' t ht
    rw [hslot j''] at hsome''
    by_cases hij : j'' = idx tab.capacity (tab.start k) d
    · -- the freshly inserted entry: its probe run is exactly the probed prefix
      rw [if_pos hij] at hsome''
      have he'' := Option.some_injective _ hsome''
      subst hij
      have hkey : e''.key = k := by rw [← he'']
      have hd' : distTo (insertAt tab (idx tab.capacity (tab.start k) d) d k
          v).capacity ((insertAt tab (idx tab.capacity (tab.start k) d) d k
          v).start e''.key) (idx tab.capacity (tab.start k) d) = d := by
        show distTo tab.capacity (tab.start e''.key)
          (idx tab.capacity (tab.start k) d) = d
        rw [hkey]
        exact distTo_idx tab.capacity (tab.start k) d hi0 hdlt
      rw [hd'] at ht
      have hstop := hmin t ht
      obtain ⟨e₀, hs₀, _⟩ := isStop_false_elim hstop
      rw [hslot]
      have hne : idx tab.capacity (tab.start k) t ≠ idx tab.capacity (tab.start k)
          d := by
        intro hcon
        have := idx_inj tab.capacity (tab.start k) (by omega) hdlt hcon
        omega
      rw [if_neg (by
        show idx (insertAt tab (idx tab.capacity (tab.start k) d) d k v).capacity
          ((insertAt tab (idx tab.capacity (tab.start k) d) d k v).start e''.key) t
            ≠ idx tab.capacity (tab.start k) d
        rw [show ((insertAt tab (idx tab.capacity (tab.start k) d) d k v).start
          e''.key) = tab.start e''.key from rfl, hkey]
        exact hne)]
      rw [show idx (insertAt tab (idx tab.capacity (tab.start k) d) d k
        v).capacity ((insertAt tab (idx tab.capacity (tab.start k) d) d k
        v).start e''.key) t = idx tab.capacity (tab.start e''.key) t from rfl, hkey]
      rw [hs₀]
      intro hcon
      exact Option.noConfusion hcon
    · -- a pre-existing entry: its probe run only gained occupancy
      rw [if_neg hij] at hsome''
      have hchain := hpwf.1 j'' e'' hsome'' t (by
        show t < distTo tab.capacity (tab.start e''.key) j''
        exact ht)
      show slotAt (tab.table.set _ (some ⟨k, v⟩)) _ ≠ none
      exact slot_isSome_of_set_some _ _ hchain
  · intro j1 j2 e1 e2 h1 h2 heq
    rw [hslot j1] at h1
    rw [hslot j2] at h2
    have heq' : tab.equals e1.key e2.key = true := heq
    by_cases hj1 : j1 = idx tab.capacity (tab.start k) d <;>
      by_cases hj2 : j2 = idx tab.capacity (tab.start k) d
    · rw [hj1, hj2]
    · rw [if_pos hj1] at h1
      rw [if_neg hj2] at h2
      exfalso
      apply hnc
      have hk1 : e1.key = k := by
        have := Option.some_injective _ h1
        rw [← this]
      refine ⟨j2, slotAt_some_lt h2, ?_⟩
      show slotMatches tab.equals (slotAt tab.table j2) k = true
      rw [h2]
      show tab.equals e2.key k = true
      apply hsymm
      rw [← hk1]
      exact heq'
    · rw [if_neg hj1] at h1
      rw [if_pos hj2] at h2
      exfalso
      apply hnc
      have hk2 : e2.key = k := by
        have := Option.some_injective _ h2
        rw [← this]
      refine ⟨j1, slotAt_some_lt h1, ?_⟩
      show slotMatches tab.equals (slotAt tab.table j1) k = true
      rw [h1]
      show tab.equals e1.key k = true
      rw [← hk2]
      exact heq'
    · rw [if_neg hj1] at h1
      rw [if_neg hj2] at h2
      exact hpwf.2 j1 j2 e1 e2 h1 h2 heq'

/-- Entries collected from pairwise-distinct slots satisfy any relation guaranteed
for entries of distinct slots. -/
theorem pairwise_entries (s : List (Option (Entry K V)))
    (R : Entry K V → Entry K V → Prop)
    (h : ∀ j1 j2 e1 e2, j1 ≠ j2 → slotAt s j1 = some e1 → slotAt s j2 = some e2 →
      R e1 e2) : List.Pairwise R (s.filterMap id) := by
  induction s with
  | nil => constructor
  | cons o rest ih =>
    have hrest : ∀ j1 j2 e1 e2, j1 ≠ j2 → slotAt rest j1 = some e1 →
        slotAt rest j2 = some e2 → R e1 e2 := by
      intro j1 j2 e1 e2 hne h1 h2
      exact h (j1 + 1) (j2 + 1) e1 e2 (by omega)
        (by simpa [slotAt, List.getD] using h1) (by simpa [slotAt, List.getD] using h2)
    cases o with
    | none =>
      have hstep : List.filterMap id (none :: rest) = List.filterMap id rest := rfl
      rw [hstep]
      exact ih hrest
    | some e =>
      have hstep : List.filterMap id (some e :: rest) = e :: List.filterMap id rest :=
        rfl
      rw [hstep]
      constructor
      · intro e' he'
        obtain ⟨j, hj⟩ := (mem_filterMap_iff_slot rest e').mp he'
        exact h 0 (j + 1) e e' (by omega) (by simp [slotAt, List.getD])
          (by simpa [slotAt, List.getD] using hj)
      · exact ih hrest

theorem pwf_of_replicate (t : Table K V) (n : Nat)
    (h : t.table = List.replicate n none) : PWF t := by
  constructor
  · intro j e hsome
    rw [h, slotAt_replicate_none] at hsome
    exact Option.noConfusion hsome
  · intro j1 j2 e1 e2 h1 h2 heq
    rw [h, slotAt_replicate_none] at h1
    exact Option.noConfusion h1

theorem not_contains_replicate (t : Table K V) (n : Nat)
    (h : t.table = List.replicate n none) (k : K) : ¬containsKey t k := by
  rintro ⟨j, hjlen, hmatch⟩
  rw [h, slotAt_replicate_none] at hmatch
  simp [slotMatches] at hmatch

theorem entriesOf_nil_of_replicate (t : Table K V) (n : Nat)
    (h : t.table = List.replicate n none) : entriesOf t = [] := by
  have : occCount t.table = 0 := by rw [h, occCount_replicate]
  exact List.length_eq_zero.mp this

/-- Re-inserting pairwise non-equal entries, none of which is already present, into
a table with the probe invariants: every re-insertion takes the plain insert path
(no update, no nested rehash), the invariants are maintained, and the final entries
are exactly the re-inserted ones plus the original ones. -/
theorem reinsertList_pwf (f c : Nat) (hc : 0 < c) (eqs : K → K → Bool)
    (hsymm : ∀ a b, eqs a b = true → eqs b a = true)
    (L : List (Option (Entry K V))) :
    ∀ (t : Table K V),
      t.equals = eqs →
      t.capacity = c * RESIZE_FACTOR →
      t.table.length = t.capacity →
      t.size = occCount t.table →
      t.size + occCount L ≤ c →
      PWF t →
      List.Pairwise (fun a b => eqs a.key b.key = false) (L.filterMap id) →
      (∀ e ∈ L.filterMap id, ¬containsKey t e.key) →
      ∃ t', reinsertList (Table.putFuel f) t L = .ok t' ∧
        t'.capacity = t.capacity ∧ t'.table.length = t'.capacity ∧
        t'.size = occCount t'.table ∧
        t'.rehashes = t.rehashes ∧ t'.hash = t.hash ∧ t'.equals = t.equals ∧
        t'.print = t.print ∧ PWF t' ∧
        List.Perm (entriesOf t') (L.filterMap id ++ entriesOf t) := by
  induction L with
  | nil =>
    intro t hteqs hcap hlen hsize hbound hpwf hpair hnew
    exact ⟨t, reinsertList_nil _ t, rfl, hlen, hsize, rfl, rfl, rfl, rfl, hpwf,
      List.Perm.refl _⟩
  | cons o rest ih =>
    intro t hteqs hcap hlen hsize hbound hpwf hpair hnew
    have hRF : RESIZE_FACTOR = 2 := rfl
    cases o with
    | none =>
      have hstep : List.filterMap id (none :: rest) = List.filterMap id rest := rfl
      rw [hstep] at hpair hnew
      rw [occCount_cons_none] at hbound
      obtain ⟨t', hrun, p1, p2, p3, p4, p5, p6, p7, hpwf', hperm⟩ :=
        ih t hteqs hcap hlen hsize hbound hpwf hpair hnew
      refine ⟨t', by rw [reinsertList_cons_none]; exact hrun, p1, p2, p3, p4, p5, p6,
        p7, hpwf', ?_⟩
      rw [hstep]
      exact hperm
    | some e =>
      have hstep : List.filterMap id (some e :: rest) = e :: List.filterMap id rest :=
        rfl
      have hpair' : List.Pairwise (fun a b => eqs a.key b.key = false)
          (e :: List.filterMap id rest) := by rw [← hstep]; exact hpair
      obtain ⟨hhead, htail⟩ := List.pairwise_cons.mp hpair'
      have hnc : ¬containsKey t e.key := by
        apply hnew
        rw [hstep]
        exact List.mem_cons_self e _
      rw [occCount_cons_some] at hbound
      have hcpos : 0 < t.capacity := by rw [hcap, hRF]; omega
      have hocc : occCount t.table < t.capacity := by
        rw [← hsize, hcap, hRF]
        omega
      obtain ⟨d, hdlt, hmin, hcase⟩ := runProbe_spec t e.key hlen hocc
      rcases hcase with ⟨hnone, hrun⟩ | ⟨e'', hsome, hm, hrun⟩
      · -- always the insert path, never triggering a nested rehash
        have hl : loadCheck (t.size + 1) t.capacity = false := by
          apply loadCheck_false_of
          rw [hcap, hRF]
          omega
        have hput := putFuel_empty_noload (v := e.value) f hrun hl
        have hjlen : idx t.capacity (t.start e.key) d < t.table.length := by
          rw [hlen]
          exact idx_lt _ _ _ hcpos
        have hsymm' : ∀ a b, t.equals a b = true → t.equals b a = true := by
          rw [hteqs]
          exact hsymm
        have hpwf1 : PWF (insertAt t (idx t.capacity (t.start e.key) d) d e.key
            e.value) :=
          pwf_insertAt t e.key e.value d hlen hcpos hpwf hsymm' hnone hdlt hmin hnc
        have hperm1 : List.Perm
            (entriesOf (insertAt t (idx t.capacity (t.start e.key) d) d e.key
              e.value)) (e :: entriesOf t) :=
          filterMap_set_insert_perm t.table _ e hnone hjlen
        have hnew1 : ∀ e' ∈ List.filterMap id rest,
            ¬containsKey (insertAt t (idx t.capacity (t.start e.key) d) d e.key
              e.value) e'.key := by
          intro e' he' hcon
          rcases (containsKey_iff_entry _ e'.key).mp hcon with ⟨e₂, hmem₂, heq₂⟩
          have heq₂' : eqs e₂.key e'.key = true := by rw [← hteqs]; exact heq₂
          rcases List.mem_cons.mp (hperm1.mem_iff.mp hmem₂) with hgoal | hmem₂'
          · rw [hgoal] at heq₂'
            rw [hhead e' he'] at heq₂'
            exact Bool.noConfusion heq₂'
          · apply hnew e' (by rw [hstep]; exact List.mem_cons_of_mem _ he')
            exact (containsKey_iff_entry t e'.key).mpr
              ⟨e₂, hmem₂', by rw [hteqs]; exact heq₂'⟩
        obtain ⟨t', hrun', p1, p2, p3, p4, p5, p6, p7, hpwf', hperm⟩ :=
          ih (insertAt t (idx t.capacity (t.start e.key) d) d e.key e.value)
            hteqs hcap
            (by show (t.table.set _ _).length = t.capacity
                rw [List.length_set]; exact hlen)
            (by show t.size + 1 = occCount (t.table.set _ (some ⟨e.key, e.value⟩))
                rw [occCount_set_insert t.table _ _ hnone hjlen, hsize])
            (by show t.size + 1 + occCount rest ≤ c; omega)
            hpwf1 htail hnew1
        refine ⟨t', by rw [reinsertList_cons_some rest hput]; exact hrun', p1, p2,
          p3, p4, p5, p6, p7, hpwf', ?_⟩
        rw [hstep]
        exact hperm.trans ((List.Perm.append_left _ hperm1).trans List.perm_middle)
      · -- a match would mean the entry was already present
        exact absurd (contains_of_found hlen hocc hrun) hnc

/-- A rehash of a table satisfying the probe invariants preserves the stored
entries exactly (as a multiset) and the invariants, doubles the capacity, and
increments `rehashes` by one. -/
theorem doRehash_pwf (f : Nat) (tab1 : Table K V)
    (hlen : tab1.table.length = tab1.capacity)
    (hsize : tab1.size = occCount tab1.table)
    (hc : 0 < tab1.capacity)
    (hle : tab1.size ≤ tab1.capacity)
    (hpwf1 : PWF tab1)
    (hsymm : ∀ a b, tab1.equals a b = true → tab1.equals b a = true) :
    ∃ t2, doRehash (Table.putFuel f) tab1 = .ok t2 ∧
      t2.capacity = tab1.capacity * RESIZE_FACTOR ∧
      t2.table.length = t2.capacity ∧ t2.size = occCount t2.table ∧
      t2.rehashes = tab1.rehashes + 1 ∧
      t2.hash = tab1.hash ∧ t2.equals = tab1.equals ∧ t2.print = tab1.print ∧
      PWF t2 ∧ List.Perm (entriesOf t2) (entriesOf tab1) := by
  have hpair : List.Pairwise (fun a b => tab1.equals a.key b.key = false)
      (tab1.table.filterMap id) := by
    apply pairwise_entries
    intro j1 j2 e1 e2 hne h1 h2
    rcases hbv : tab1.equals e1.key e2.key with _ | _
    · rfl
    · exact absurd (hpwf1.2 j1 j2 e1 e2 h1 h2 hbv) hne
  obtain ⟨t', hrun, p1, p2, p3, p4, p5, p6, p7, hpwf', hperm⟩ :=
    reinsertList_pwf f tab1.capacity hc tab1.equals hsymm tab1.table
      { tab1 with capacity := tab1.capacity * RESIZE_FACTOR,
                  table := List.replicate (tab1.capacity * RESIZE_FACTOR) none,
                  size := 0 }
      rfl rfl (by simp) (by rw [occCount_replicate])
      (by show 0 + occCount tab1.table ≤ tab1.capacity; rw [← hsize]; omega)
      (pwf_of_replicate _ _ rfl) hpair
      (fun e _ => not_contains_replicate _ _ rfl e.key)
  have hnil : entriesOf { tab1 with
                            capacity := tab1.capacity * RESIZE_FACTOR,
                            table := List.replicate
                              (tab1.capacity * RESIZE_FACTOR) none,
                            size := 0 } = ([] : List (Entry K V)) :=
    entriesOf_nil_of_replicate _ _ rfl
  rw [hnil, List.append_nil] at hperm
  refine ⟨{ t' with rehashes := t'.rehashes + 1 }, ?_, p1, p2, p3, ?_, p5, p6, p7,
    hpwf', hperm⟩
  · unfold doRehash
    rw [hrun]
  · show t'.rehashes + 1 = tab1.rehashes + 1
    rw [p4]

/-! ## Top-level specifications of put, get and has -/

/-- `put` of a key not yet present: returns C's `NULL`, adds exactly the entry
`(k, v)`, increments `size`, and grows (exactly one rehash, doubling the capacity)
precisely when the load threshold is reached. -/
theorem put_insert_spec (tab : Table K V) (k : K) (v : V)
    (hswf : SWF tab) (hpwf : PWF tab)
    (hsymm : ∀ a b, tab.equals a b = true → tab.equals b a = true)
    (hnc : ¬containsKey tab k) :
    ∃ tab', Table.put tab k v = .ok (none, tab') ∧ SWF tab' ∧ PWF tab' ∧
      tab'.hash = tab.hash ∧ tab'.equals = tab.equals ∧ tab'.print = tab.print ∧
      List.Perm (entriesOf tab') (⟨k, v⟩ :: entriesOf tab) ∧
      tab'.size = tab.size + 1 ∧
      (loadCheck (tab.size + 1) tab.capacity = false →
        tab'.capacity = tab.capacity ∧ tab'.rehashes = tab.rehashes) ∧
      (loadCheck (tab.size + 1) tab.capacity = true →
        tab'.capacity = tab.capacity * RESIZE_FACTOR ∧
        tab'.rehashes = tab.rehashes + 1) := by
  obtain ⟨hlen, hsize, hload, hcapeq⟩ := hswf
  have hocc : occCount tab.table < tab.capacity := by omega
  have hc : 0 < tab.capacity := by omega
  obtain ⟨d, hdlt, hmin, hcase⟩ := runProbe_spec tab k hlen hocc
  rcases hcase with ⟨hnone, hrun⟩ | ⟨e, hsome, hm, hrun⟩
  · have hjlen : idx tab.capacity (tab.start k) d < tab.table.length := by
      rw [hlen]
      exact idx_lt _ _ _ hc
    have hpwf1 : PWF (insertAt tab (idx tab.capacity (tab.start k) d) d k v) :=
      pwf_insertAt tab k v d hlen hc hpwf hsymm hnone hdlt hmin hnc
    have hperm1 : List.Perm
        (entriesOf (insertAt tab (idx tab.capacity (tab.start k) d) d k v))
        (⟨k, v⟩ :: entriesOf tab) :=
      filterMap_set_insert_perm tab.table _ ⟨k, v⟩ hnone hjlen
    have hocc1 : occCount (insertAt tab (idx tab.capacity (tab.start k) d) d k
        v).table = occCount tab.table + 1 :=
      occCount_set_insert tab.table _ _ hnone hjlen
    rcases hl : loadCheck (tab.size + 1) tab.capacity with _ | _
    · refine ⟨insertAt tab (idx tab.capacity (tab.start k) d) d k v,
        putFuel_empty_noload 2 hrun hl, ⟨?_, ?_, ?_, ?_⟩, hpwf1, rfl, rfl, rfl,
        hperm1, rfl, fun _ => ⟨rfl, rfl⟩, ?_⟩
      · show (tab.table.set _ _).length = tab.capacity
        rw [List.length_set]
        exact hlen
      · show tab.size + 1 = _
        rw [hocc1, hsize]
      · show 4 * (tab.size + 1) < 3 * tab.capacity
        have : ¬ 3 * tab.capacity ≤ 4 * (tab.size + 1) := by
          intro hcon
          rw [loadCheck_true_of _ _ hcon] at hl
          exact Bool.noConfusion hl
        omega
      · exact hcapeq
      · intro hcon
        simp at hcon
    · have hsymm1 : ∀ a b,
          (insertAt tab (idx tab.capacity (tab.start k) d) d k v).equals a b = true →
          (insertAt tab (idx tab.capacity (tab.start k) d) d k v).equals b a
            = true := hsymm
      obtain ⟨t2, ht2, g1, g2, g3, g4, g5, g6, g7, hpwf2, hperm2⟩ :=
        doRehash_pwf 1 (insertAt tab (idx tab.capacity (tab.start k) d) d k v)
          (by show (tab.table.set _ _).length = tab.capacity
              rw [List.length_set]; exact hlen)
          (by show tab.size + 1 = _; rw [hocc1, hsize])
          hc (by show tab.size + 1 ≤ tab.capacity; omega) hpwf1 hsymm1
      have hsize2 : t2.size = tab.size + 1 := by
        have h1 : t2.size = (entriesOf t2).length := g3
        rw [h1, hperm2.length_eq]
        show (entriesOf (insertAt tab (idx tab.capacity (tab.start k) d) d k
          v)).length = tab.size + 1
        show occCount (insertAt tab (idx tab.capacity (tab.start k) d) d k
          v).table = tab.size + 1
        rw [hocc1, hsize]
      refine ⟨t2, putFuel_empty_load 1 hrun hl ht2, ⟨g2, g3, ?_, ?_⟩, hpwf2,
        g5, g6, g7, hperm2.trans hperm1, hsize2, ?_, fun _ => ⟨g1, g4⟩⟩
      · have hRF : RESIZE_FACTOR = 2 := rfl
        have hc2 : t2.capacity = tab.capacity * 2 := by
          rw [g1, hRF]
          rfl
        omega
      · show t2.capacity = INITIAL_CAPACITY * RESIZE_FACTOR ^ t2.rehashes
        have hreh : t2.rehashes = tab.rehashes + 1 := g4
        rw [g1, hreh]
        show tab.capacity * RESIZE_FACTOR =
          INITIAL_CAPACITY * RESIZE_FACTOR ^ (tab.rehashes + 1)
        rw [hcapeq, pow_succ, Nat.mul_assoc]
      · intro hcon
        simp at hcon
  · exact absurd (contains_of_found hlen hocc hrun) hnc

/-- `put` of a key already present (the update path): returns the previous value,
overwrites the stored value in place, and leaves `size`, `capacity`, `rehashes`
and every other slot unchanged. -/
theorem put_update_spec (tab : Table K V) (k : K) (v : V)
    (hswf : SWF tab) (hpwf : PWF tab)
    (hsymm : ∀ a b, tab.equals a b = true → tab.equals b a = true)
    (htrans : ∀ a b c, tab.equals a b = true → tab.equals b c = true →
      tab.equals a c = true)
    (hcons : ∀ a b, tab.equals a b = true → tab.hash a = tab.hash b)
    {e0 : Entry K V} (hmem : e0 ∈ entriesOf tab)
    (hm0 : tab.equals e0.key k = true) :
    ∃ j tab', Table.put tab k v = .ok (some e0.value, tab') ∧
      slotAt tab.table j = some e0 ∧ SWF tab' ∧ PWF tab' ∧
      tab'.size = tab.size ∧ tab'.capacity = tab.capacity ∧
      tab'.rehashes = tab.rehashes ∧ tab'.hash = tab.hash ∧
      tab'.equals = tab.equals ∧ tab'.print = tab.print ∧
      slotAt tab'.table j = some ⟨e0.key, v⟩ ∧
      (∀ i, i ≠ j → slotAt tab'.table i = slotAt tab.table i) := by
  obtain ⟨hlen, hsize, hload, hcapeq⟩ := hswf
  have hocc : occCount tab.table < tab.capacity := by omega
  obtain ⟨j0, hj0⟩ := (mem_filterMap_iff_slot tab.table e0).mp hmem
  obtain ⟨d, hdlt, hmin, hcase⟩ := runProbe_spec tab k hlen hocc
  rcases hcase with ⟨hnone, hrun⟩ | ⟨e, hsome, hm, hrun⟩
  · exfalso
    exact not_contains_of_empty hlen hocc hpwf hcons hrun
      ⟨j0, slotAt_some_lt hj0, by rw [hj0]; exact hm0⟩
  · obtain ⟨hjeq, heeq⟩ :=
      found_unique hlen hocc hpwf hsymm htrans hrun hj0 hm0
    have hjlen : j0 < tab.table.length := slotAt_some_lt hj0
    refine ⟨j0, updateAt tab (idx tab.capacity (tab.start k) d) d e v,
      ?_, hj0, ⟨?_, ?_, hload, hcapeq⟩, pwf_updateAt tab _ d e v hpwf hsome,
      rfl, rfl, rfl, rfl, rfl, rfl, ?_, ?_⟩
    · rw [← heeq] at hrun ⊢
      exact putFuel_found 2 hrun
    · show (tab.table.set _ _).length = tab.capacity
      rw [List.length_set]
      exact hlen
    · show tab.size = occCount
        (tab.table.set (idx tab.capacity (tab.start k) d) (some ⟨e.key, v⟩))
      rw [occCount_set_update tab.table _ e _ hsome, hsize]
    · rw [hjeq]
      show slotAt (tab.table.set (idx tab.capacity (tab.start k) d)
        (some ⟨e.key, v⟩)) _ = some ⟨e0.key, v⟩
      rw [slotAt_set_self tab.table _ _ (by rw [← hjeq]; exact hjlen), ← heeq]
    · intro i hi
      rw [hjeq] at hi
      show slotAt (tab.table.set (idx tab.capacity (tab.start k) d)
        (some ⟨e.key, v⟩)) i = slotAt tab.table i
      rw [slotAt_set_ne tab.table _ i _ (fun hcon => hi hcon.symm)]

/-- `get` on a key with an `equals`-equal stored entry returns that entry's value,
touching only the collision counter. -/
theorem get_of_entry (tab : Table K V) (k : K)
    (hswf : SWF tab) (hpwf : PWF tab)
    (hsymm : ∀ a b, tab.equals a b = true → tab.equals b a = true)
    (htrans : ∀ a b c, tab.equals a b = true → tab.equals b c = true →
      tab.equals a c = true)
    (hcons : ∀ a b, tab.equals a b = true → tab.hash a = tab.hash b)
    {e0 : Entry K V} (hmem : e0 ∈ entriesOf tab)
    (hm0 : tab.equals e0.key k = true) :
    ∃ d, Table.get tab k = .ok (e0.value, bumpColl tab d) := by
  obtain ⟨hlen, hsize, hload, hcapeq⟩ := hswf
  have hocc : occCount tab.table < tab.capacity := by omega
  obtain ⟨j0, hj0⟩ := (mem_filterMap_iff_slot tab.table e0).mp hmem
  obtain ⟨d, hdlt, hmin, hcase⟩ := runProbe_spec tab k hlen hocc
  rcases hcase with ⟨hnone, hrun⟩ | ⟨e, hsome, hm, hrun⟩
  · exact absurd ⟨j0, slotAt_some_lt hj0, by rw [hj0]; exact hm0⟩
      (not_contains_of_empty hlen hocc hpwf hcons hrun)
  · obtain ⟨hjeq, heeq⟩ := found_unique hlen hocc hpwf hsymm htrans hrun hj0 hm0
    rw [← heeq] at hrun
    exact ⟨d, get_found hrun⟩

/-- `has` answers exactly the containment question (and never aborts or hangs). -/
theorem has_spec (tab : Table K V) (k : K)
    (hswf : SWF tab) (hpwf : PWF tab)
    (hcons : ∀ a b, tab.equals a b = true → tab.hash a = tab.hash b) :
    ∃ d, Table.has tab k = .ok (decide (containsKey tab k), bumpColl tab d) := by
  obtain ⟨hlen, hsize, hload, hcapeq⟩ := hswf
  have hocc : occCount tab.table < tab.capacity := by omega
  obtain ⟨d, hdlt, hmin, hcase⟩ := runProbe_spec tab k hlen hocc
  rcases hcase with ⟨hnone, hrun⟩ | ⟨e, hsome, hm, hrun⟩
  · have hnc := not_contains_of_empty hlen hocc hpwf hcons hrun
    rw [show decide (containsKey tab k) = false from decide_eq_false hnc]
    exact ⟨d, has_empty hrun⟩
  · have hcont := contains_of_found hlen hocc hrun
    rw [show decide (containsKey tab k) = true from decide_eq_true hcont]
    exact ⟨d, has_found hrun⟩

/-- `get` aborts (the `assert(NULL)`) exactly when no `equals`-equal key is stored. -/
theorem get_abort_iff (tab : Table K V) (k : K)
    (hswf : SWF tab) (hpwf : PWF tab)
    (hcons : ∀ a b, tab.equals a b = true → tab.hash a = tab.hash b) :
    (Table.get tab k = .abort ↔ ¬containsKey tab k) := by
  obtain ⟨hlen, hsize, hload, hcapeq⟩ := hswf
  have hocc : occCount tab.table < tab.capacity := by omega
  obtain ⟨d, hdlt, hmin, hcase⟩ := runProbe_spec tab k hlen hocc
  rcases hcase with ⟨hnone, hrun⟩ | ⟨e, hsome, hm, hrun⟩
  · constructor
    · intro _
      exact not_contains_of_empty hlen hocc hpwf hcons hrun
    · intro _
      exact get_empty hrun
  · constructor
    · intro habort
      rw [get_found hrun] at habort
      exact CResult.noConfusion habort
    · intro hnc
      exact absurd (contains_of_found hlen hocc hrun) hnc

theorem good_of_fields (t t' : Table K V) (hh : t'.hash = t.hash)
    (he : t'.equals = t.equals) (hg : Good t') : Good t := by
  unfold Good at *
  rw [hh, he] at hg
  exact hg

/-- Every reachable table whose behaviour functions are `Good` satisfies the probe
invariants. -/
theorem reachable_pwf (tab : Table K V) (h : Reachable tab) (hgood : Good tab) :
    PWF tab := by
  induction h with
  | created hf eqs pr => exact pwf_of_replicate _ INITIAL_CAPACITY rfl
  | ofPut hre hput ih =>
    rename_i tab0 k v out
    have hswf := reachable_swf _ hre
    obtain ⟨r', tab'', hok, _, hh, he, _⟩ := put_swf tab0 k v hswf
    have hout2 : out.2 = tab'' := by
      rw [hput] at hok
      rw [CResult.ok.inj hok]
    have hgood0 : Good tab0 := by
      apply good_of_fields tab0 out.2
      · rw [hout2]; exact hh
      · rw [hout2]; exact he
      · exact hgood
    have hpwf0 := ih hgood0
    obtain ⟨hrefl, hsymm, htrans, hcons⟩ := hgood0
    by_cases hcont : containsKey tab0 k
    · obtain ⟨e0, hmem, hm0⟩ := (containsKey_iff_entry tab0 k).mp hcont
      obtain ⟨j, tab', hputeq, _, _, hpwf', _⟩ :=
        put_update_spec tab0 k v hswf hpwf0 hsymm htrans hcons hmem hm0
      rw [hput] at hputeq
      rw [show out.2 = tab' from by rw [CResult.ok.inj hputeq]]
      exact hpwf'
    · obtain ⟨tab', hputeq, _, hpwf', _⟩ :=
        put_insert_spec tab0 k v hswf hpwf0 hsymm hcont
      rw [hput] at hputeq
      rw [show out.2 = tab' from by rw [CResult.ok.inj hputeq]]
      exact hpwf'
  | ofGet hre hget ih =>
    rename_i tab0 k out
    revert hget
    unfold Table.get
    rcases hr : runProbe tab0 k with ⟨j, e, d⟩ | ⟨j, d⟩ | _
    · intro hget
      have hout2 : out = (e.value, bumpColl tab0 d) := (CResult.ok.inj hget).symm
      rw [hout2]
      have hgood0 : Good tab0 := by
        rw [hout2] at hgood
        exact hgood
      exact ih hgood0
    · intro hget
      exact absurd hget (fun hcon => CResult.noConfusion hcon)
    · intro hget
      exact absurd hget (fun hcon => CResult.noConfusion hcon)
  | ofHas hre hhas ih =>
    rename_i tab0 k out
    revert hhas
    unfold Table.has
    rcases hr : runProbe tab0 k with ⟨j, e, d⟩ | ⟨j, d⟩ | _
    · intro hhas
      have hout2 : out = (true, bumpColl tab0 d) := (CResult.ok.inj hhas).symm
      rw [hout2]
      have hgood0 : Good tab0 := by
        rw [hout2] at hgood
        exact hgood
      exact ih hgood0
    · intro hhas
      have hout2 : out = (false, bumpColl tab0 d) := (CResult.ok.inj hhas).symm
      rw [hout2]
      have hgood0 : Good tab0 := by
        rw [hout2] at hgood
        exact hgood
      exact ih hgood0
    · intro hhas
      exact absurd hhas (fun hcon => CResult.noConfusion hcon)

/-! ## Sequences of puts from a fresh table -/

theorem runPuts_nil (tab : Table K V) : runPuts tab [] = .ok tab := rfl

theorem runPuts_cons {tab tab' : Table K V} {k : K} {v : V} {r : Option V}
    (rest : List (K × V)) (h : Table.put tab k v = .ok (r, tab')) :
    runPuts tab ((k, v) :: rest) = runPuts tab' rest := by
  show (match Table.put tab k v with
    | .ok (_, t') => runPuts t' rest
    | .abort => .abort
    | .hang => .hang) = runPuts tab' rest
  rw [h]

theorem reachable_runPuts (l : List (K × V)) :
    ∀ (tab : Table K V), Reachable tab →
      ∀ t', runPuts tab l = .ok t' → Reachable t' := by
  induction l with
  | nil =>
    intro tab hre t' h
    rw [runPuts_nil] at h
    rw [← CResult.ok.inj h]
    exact hre
  | cons p rest ih =>
    intro tab hre t' h
    rcases hp : Table.put tab p.1 p.2 with out | _ | _
    · have hre' : Reachable out.2 := Reachable.ofPut hre hp
      rw [show p = (p.1, p.2) from rfl, runPuts_cons rest
        (show Table.put tab p.1 p.2 = .ok (out.1, out.2) from by rw [hp])] at h
      exact ih out.2 hre' t' h
    · rw [show p = (p.1, p.2) from rfl] at h
      unfold runPuts at h
      rw [hp] at h
      exact absurd h (fun hcon => CResult.noConfusion hcon)
    · rw [show p = (p.1, p.2) from rfl] at h
      unfold runPuts at h
      rw [hp] at h
      exact absurd h (fun hcon => CResult.noConfusion hcon)

/-- Containment after an in-place update is containment before. -/
theorem contains_of_update (tab tab' : Table K V) (j : Nat) (e0 : Entry K V) (v : V)
    (hsj : slotAt tab.table j = some e0)
    (hsj' : slotAt tab'.table j = some ⟨e0.key, v⟩)
    (hother : ∀ i, i ≠ j → slotAt tab'.table i = slotAt tab.table i)
    (hlen' : tab'.table.length = tab.table.length)
    (heqs : tab'.equals = tab.equals) (k' : K) :
    containsKey tab' k' ↔ containsKey tab k' := by
  unfold containsKey
  rw [heqs, hlen']
  constructor
  · rintro ⟨i, hilt, hmatch⟩
    by_cases hij : i = j
    · subst hij
      rw [hsj'] at hmatch
      refine ⟨i, hilt, ?_⟩
      rw [hsj]
      exact hmatch
    · rw [hother i hij] at hmatch
      exact ⟨i, hilt, hmatch⟩
  · rintro ⟨i, hilt, hmatch⟩
    by_cases hij : i = j
    · subst hij
      rw [hsj] at hmatch
      refine ⟨i, hilt, ?_⟩
      rw [hsj']
      exact hmatch
    · rw [← hother i hij] at hmatch
      exact ⟨i, hilt, hmatch⟩

/-- Containment after an insertion: the new key, or anything contained before. -/
theorem contains_perm_cons (tab tab' : Table K V) (k : K) (v : V)
    (hperm : List.Perm (entriesOf tab') (⟨k, v⟩ :: entriesOf tab))
    (heqs : tab'.equals = tab.equals) (k' : K) :
    containsKey tab' k' ↔ (tab.equals k k' = true ∨ containsKey tab k') := by
  rw [containsKey_iff_entry, containsKey_iff_entry]
  constructor
  · rintro ⟨e, hmem, heq⟩
    rw [heqs] at heq
    rcases List.mem_cons.mp (hperm.mem_iff.mp hmem) with hgoal | hmem'
    · left
      rw [hgoal] at heq
      exact heq
    · right
      exact ⟨e, hmem', heq⟩
  · rintro (h | ⟨e, hmem, heq⟩)
    · refine ⟨⟨k, v⟩, hperm.mem_iff.mpr (List.mem_cons_self _ _), ?_⟩
      show tab'.equals k k' = true
      rw [heqs]
      exact h
    · refine ⟨e, hperm.mem_iff.mpr (List.mem_cons_of_mem _ hmem), ?_⟩
      rw [heqs]
      exact heq

/-- Replaying a list of `put` calls from a well-formed table: the run succeeds, the
final table contains exactly the keys equal to an inserted key (or already present),
and inserting pairwise non-equal fresh keys grows `size` by exactly their number. -/
theorem runPuts_spec (l : List (K × V)) :
    ∀ (tab : Table K V), SWF tab → PWF tab → Good tab →
      ∃ tab', runPuts tab l = .ok tab' ∧ SWF tab' ∧ PWF tab' ∧
        tab'.hash = tab.hash ∧ tab'.equals = tab.equals ∧ tab'.print = tab.print ∧
        (∀ k, containsKey tab' k ↔
          (containsKey tab k ∨ ∃ p ∈ l, tab.equals p.1 k = true)) ∧
        ((List.Pairwise (fun p q => tab.equals p.1 q.1 = false) l ∧
          (∀ p ∈ l, ¬containsKey tab p.1)) → tab'.size = tab.size + l.length) := by
  induction l with
  | nil =>
    intro tab hswf hpwf hgood
    refine ⟨tab, runPuts_nil tab, hswf, hpwf, rfl, rfl, rfl, ?_, fun _ => rfl⟩
    intro k
    simp
  | cons p rest ih =>
    intro tab hswf hpwf hgood
    obtain ⟨hrefl, hsymm, htrans, hcons⟩ := hgood
    by_cases hcont : containsKey tab p.1
    · -- update step: nothing changes for containment or size
      obtain ⟨e0, hmem, hm0⟩ := (containsKey_iff_entry tab p.1).mp hcont
      obtain ⟨j, tab1, hputeq, hsj, hswf1, hpwf1, hsz1, hcap1, hreh1, hh1, he1,
        hp1, hsj', hother⟩ :=
        put_update_spec tab p.1 p.2 hswf hpwf hsymm htrans hcons hmem hm0
      have hgood1' : Good tab1 := good_of_fields tab1 tab hh1.symm he1.symm
        ⟨hrefl, hsymm, htrans, hcons⟩
      have hlen1 : tab1.table.length = tab.table.length := by
        have h1 : tab1.table.length = tab1.capacity := hswf1.1
        have h2 : tab.table.length = tab.capacity := hswf.1
        omega
      have hciff : ∀ k', containsKey tab1 k' ↔ containsKey tab k' :=
        contains_of_update tab tab1 j e0 p.2 hsj hsj' hother hlen1 he1
      obtain ⟨tab', hrun', q1, q2, q3, q4, q5, q6, q7⟩ :=
        ih tab1 hswf1 hpwf1 hgood1'
      refine ⟨tab', ?_, q1, q2, by rw [q3, hh1], by rw [q4, he1],
        by rw [q5, hp1], ?_, ?_⟩
      · rw [show p = (p.1, p.2) from rfl, runPuts_cons rest hputeq]
        exact hrun'
      · intro k
        rw [q6 k, hciff k, he1]
        constructor
        · rintro (hc | ⟨q, hq, hqe⟩)
          · exact Or.inl hc
          · exact Or.inr ⟨q, List.mem_cons_of_mem _ hq, hqe⟩
        · rintro (hc | ⟨q, hq, hqe⟩)
          · exact Or.inl hc
          · rcases List.mem_cons.mp hq with hq1 | hq2
            · left
              rw [hq1] at hqe
              exact (containsKey_iff_entry tab k).mpr
                ⟨e0, hmem, htrans e0.key p.1 k hm0 hqe⟩
            · exact Or.inr ⟨q, hq2, hqe⟩
      · rintro ⟨hpair, hnone⟩
        exact absurd hcont (hnone p (List.mem_cons_self _ _))
    · -- insert step
      obtain ⟨tab1, hputeq, hswf1, hpwf1, hh1, he1, hp1, hperm1, hsz1, _, _⟩ :=
        put_insert_spec tab p.1 p.2 hswf hpwf hsymm hcont
      have hgood1' : Good tab1 := good_of_fields tab1 tab hh1.symm he1.symm
        ⟨hrefl, hsymm, htrans, hcons⟩
      have hciff : ∀ k', containsKey tab1 k' ↔
          (tab.equals p.1 k' = true ∨ containsKey tab k') :=
        contains_perm_cons tab tab1 p.1 p.2 hperm1 he1
      obtain ⟨tab', hrun', q1, q2, q3, q4, q5, q6, q7⟩ :=
        ih tab1 hswf1 hpwf1 hgood1'
      refine ⟨tab', ?_, q1, q2, by rw [q3, hh1], by rw [q4, he1],
        by rw [q5, hp1], ?_, ?_⟩
      · rw [show p = (p.1, p.2) from rfl, runPuts_cons rest hputeq]
        exact hrun'
      · intro k
        rw [q6 k, he1]
        constructor
        · rintro (hc | ⟨q, hq, hqe⟩)
          · rcases (hciff k).mp hc with h1 | h2
            · exact Or.inr ⟨p, List.mem_cons_self _ _, h1⟩
            · exact Or.inl h2
          · exact Or.inr ⟨q, List.mem_cons_of_mem _ hq, hqe⟩
        · rintro (hc | ⟨q, hq, hqe⟩)
          · exact Or.inl ((hciff k).mpr (Or.inr hc))
          · rcases List.mem_cons.mp hq with hq1 | hq2
            · exact Or.inl ((hciff k).mpr (Or.inl (by rw [← hq1]; exact hqe)))
            · exact Or.inr ⟨q, hq2, hqe⟩
      · rintro ⟨hpair, hnone⟩
        obtain ⟨hhead, htail⟩ := List.pairwise_cons.mp hpair
        have hq7 := q7 ⟨by rw [he1]; exact htail, ?_⟩
        · rw [hq7, hsz1]
          show tab.size + 1 + rest.length = tab.size + (rest.length + 1)
          omega
        · intro q hq hconq
          rcases (hciff q.1).mp hconq with h1 | h2
          · rw [hhead q hq] at h1
            exact Bool.noConfusion h1
          · exact hnone q (List.mem_cons_of_mem _ hq) h2

/-! ## Auxiliary facts for the probe-count and probe-index claims -/

theorem find?_range_eq_some (p : Nat → Bool) :
    ∀ n d, d < n → p d = true → (∀ t, t < d → p t = false) →
      (List.range n).find? p = some d := by
  intro n
  induction n with
  | zero =>
    intro d hd _ _
    exact absurd hd (by omega)
  | succ m ih =>
    intro d hd hp hmin
    rw [List.range_succ, List.find?_append]
    rcases Nat.lt_or_ge d m with hdm | hdm
    · rw [ih d hdm hp hmin]
      rfl
    · have hdm' : m = d := by omega
      have hnone : (List.range m).find? p = none := by
        rw [List.find?_eq_none]
        intro x hx
        have hxm := List.mem_range.mp hx
        rw [hmin x (by omega)]
        simp
      rw [hnone, hdm', List.find?_cons_of_pos _ hp]
      rfl

/-- The C expression `hash % capacity` (signed `long` converted to `size_t`, then
reduced): whenever the capacity divides 2^64 — true of every power-of-two capacity
a 64-bit `size_t` can hold — the result is the mathematical Euclidean
`hash mod capacity`, even for negative hash values. -/
theorem startIndex_eq_emod (h : Int) (cap : Nat) (hc : 0 < cap)
    (hdvd : (cap : Nat) ∣ 2 ^ 64) :
    startIndex h cap = (h % (cap : Int)).toNat := by
  unfold startIndex
  have hM : ((2 : Int) ^ 64) ≠ 0 := by norm_num
  have hm0 : 0 ≤ h % ((2 : Int) ^ 64) := Int.emod_nonneg h hM
  have hcap0 : (0 : Int) < (cap : Int) := by exact_mod_cast hc
  have hdvdInt : (cap : Int) ∣ ((2 : Int) ^ 64) := by
    have := Int.natCast_dvd_natCast.mpr hdvd
    push_cast at this
    exact this
  have key : (h % ((2 : Int) ^ 64)) % (cap : Int) = h % (cap : Int) :=
    Int.emod_emod_of_dvd h hdvdInt
  have h2 : (((h % ((2 : Int) ^ 64)).toNat % cap : Nat) : Int)
      = h % (cap : Int) := by
    have hencode : (((h % ((2 : Int) ^ 64)).toNat % cap : Nat) : Int)
        = (((h % ((2 : Int) ^ 64)).toNat : Nat) : Int) % (cap : Int) := by
      push_cast
      rfl
    rw [hencode, Int.toNat_of_nonneg hm0, key]
  have h3 : (((h % (cap : Int)).toNat : Nat) : Int) = h % (cap : Int) :=
    Int.toNat_of_nonneg (Int.emod_nonneg h (by omega))
  omega

/-! ## The claims -/

/-- C1: Round-trip — for every table reachable from `create` (with the hash function
deterministic and agreeing with `equals`, and `equals` an equivalence relation) and
every key `k` and value `v`, `put(tab, k, v)` followed immediately by `get(tab, k)`
returns `v`. -/
theorem claim_C1_roundtrip (tab : Table K V) (k : K) (v : V)
    (hre : Reachable tab) (hgood : Good tab) :
    ∃ r tab', Table.put tab k v = .ok (r, tab') ∧
      ∃ tab'', Table.get tab' k = .ok (v, tab'') := by
  have hswf := reachable_swf tab hre
  have hpwf := reachable_pwf tab hre hgood
  obtain ⟨hrefl, hsymm, htrans, hcons⟩ := hgood
  by_cases hcont : containsKey tab k
  · obtain ⟨e0, hmem, hm0⟩ := (containsKey_iff_entry tab k).mp hcont
    obtain ⟨j, tab1, hputeq, hsj, hswf1, hpwf1, _, _, _, hh1, he1, hp1, hsj', _⟩ :=
      put_update_spec tab k v hswf hpwf hsymm htrans hcons hmem hm0
    refine ⟨some e0.value, tab1, hputeq, ?_⟩
    have hmem1 : (⟨e0.key, v⟩ : Entry K V) ∈ entriesOf tab1 :=
      (mem_filterMap_iff_slot tab1.table _).mpr ⟨j, hsj'⟩
    have hm1 : tab1.equals (⟨e0.key, v⟩ : Entry K V).key k = true := by
      rw [he1]
      exact hm0
    have hsymm1 : ∀ a b, tab1.equals a b = true → tab1.equals b a = true := by
      rw [he1]
      exact hsymm
    have htrans1 : ∀ a b c, tab1.equals a b = true → tab1.equals b c = true →
        tab1.equals a c = true := by
      rw [he1]
      exact htrans
    have hcons1 : ∀ a b, tab1.equals a b = true → tab1.hash a = tab1.hash b := by
      rw [he1, hh1]
      exact hcons
    obtain ⟨d, hget⟩ :=
      get_of_entry tab1 k hswf1 hpwf1 hsymm1 htrans1 hcons1 hmem1 hm1
    exact ⟨bumpColl tab1 d, hget⟩
  · obtain ⟨tab1, hputeq, hswf1, hpwf1, hh1, he1, hp1, hperm1, _, _, _⟩ :=
      put_insert_spec tab k v hswf hpwf hsymm hcont
    refine ⟨none, tab1, hputeq, ?_⟩
    have hmem1 : (⟨k, v⟩ : Entry K V) ∈ entriesOf tab1 :=
      hperm1.mem_iff.mpr (List.mem_cons_self _ _)
    have hm1 : tab1.equals (⟨k, v⟩ : Entry K V).key k = true := by
      rw [he1]
      exact hrefl k
    have hsymm1 : ∀ a b, tab1.equals a b = true → tab1.equals b a = true := by
      rw [he1]
      exact hsymm
    have htrans1 : ∀ a b c, tab1.equals a b = true → tab1.equals b c = true →
        tab1.equals a c = true := by
      rw [he1]
      exact htrans
    have hcons1 : ∀ a b, tab1.equals a b = true → tab1.hash a = tab1.hash b := by
      rw [he1, hh1]
      exact hcons
    obtain ⟨d, hget⟩ :=
      get_of_entry tab1 k hswf1 hpwf1 hsymm1 htrans1 hcons1 hmem1 hm1
    exact ⟨bumpColl tab1 d, hget⟩

/-- C3: Update semantics — on every reachable table with well-behaved functions,
`put(tab, k, v1)` then `put(tab1, k, v2)` leaves `get` returning `v2`; the second
`put` returns the previous value `v1` (while a `put` that inserts a fresh key
returns `none`, C's `NULL`); and the size after both puts equals the size after
only the first. -/
theorem claim_C3_update_semantics (tab : Table K V) (k : K) (v1 v2 : V)
    (hre : Reachable tab) (hgood : Good tab) :
    ∃ r1 tab1, Table.put tab k v1 = .ok (r1, tab1) ∧
      (¬containsKey tab k → r1 = none) ∧
      ∃ tab2, Table.put tab1 k v2 = .ok (some v1, tab2) ∧
        tab2.size = tab1.size ∧
        ∃ tab3, Table.get tab2 k = .ok (v2, tab3) := by
  have hswf := reachable_swf tab hre
  have hpwf := reachable_pwf tab hre hgood
  obtain ⟨hrefl, hsymm, htrans, hcons⟩ := hgood
  -- whichever path the first put takes, it leaves an entry `(k0, v1)` with
  -- `equals k0 k`; collect that entry plus the well-formedness of `tab1`
  have step1 : ∃ r1 tab1, Table.put tab k v1 = .ok (r1, tab1) ∧
      (¬containsKey tab k → r1 = none) ∧ SWF tab1 ∧ PWF tab1 ∧
      tab1.hash = tab.hash ∧ tab1.equals = tab.equals ∧
      ∃ e1 ∈ entriesOf tab1, tab.equals e1.key k = true ∧ e1.value = v1 := by
    by_cases hcont : containsKey tab k
    · obtain ⟨e0, hmem, hm0⟩ := (containsKey_iff_entry tab k).mp hcont
      obtain ⟨j, tab1, hputeq, hsj, hswf1, hpwf1, _, _, _, hh1, he1, hp1, hsj',
        _⟩ := put_update_spec tab k v1 hswf hpwf hsymm htrans hcons hmem hm0
      exact ⟨some e0.value, tab1, hputeq, fun hno => absurd hcont hno, hswf1,
        hpwf1, hh1, he1, ⟨e0.key, v1⟩,
        (mem_filterMap_iff_slot tab1.table _).mpr ⟨j, hsj'⟩, hm0, rfl⟩
    · obtain ⟨tab1, hputeq, hswf1, hpwf1, hh1, he1, hp1, hperm1, _, _, _⟩ :=
        put_insert_spec tab k v1 hswf hpwf hsymm hcont
      exact ⟨none, tab1, hputeq, fun _ => rfl, hswf1, hpwf1, hh1, he1, ⟨k, v1⟩,
        hperm1.mem_iff.mpr (List.mem_cons_self _ _), hrefl k, rfl⟩
  obtain ⟨r1, tab1, hput1, hr1, hswf1, hpwf1, hh1, he1, e1, hmem1, hm1, hv1⟩ :=
    step1
  refine ⟨r1, tab1, hput1, hr1, ?_⟩
  have hsymm1 : ∀ a b, tab1.equals a b = true → tab1.equals b a = true := by
    rw [he1]
    exact hsymm
  have htrans1 : ∀ a b c, tab1.equals a b = true → tab1.equals b c = true →
      tab1.equals a c = true := by
    rw [he1]
    exact htrans
  have hcons1 : ∀ a b, tab1.equals a b = true → tab1.hash a = tab1.hash b := by
    rw [he1, hh1]
    exact hcons
  have hm1' : tab1.equals e1.key k = true := by
    rw [he1]
    exact hm1
  obtain ⟨j2, tab2, hput2, hsj2, hswf2, hpwf2, hsz2, _, _, hh2, he2, hp2, hsj2',
    _⟩ := put_update_spec tab1 k v2 hswf1 hpwf1 hsymm1 htrans1 hcons1 hmem1 hm1'
  rw [hv1] at hput2
  refine ⟨tab2, hput2, hsz2, ?_⟩
  have hmem2 : (⟨e1.key, v2⟩ : Entry K V) ∈ entriesOf tab2 :=
    (mem_filterMap_iff_slot tab2.table _).mpr ⟨j2, hsj2'⟩
  have hm2 : tab2.equals (⟨e1.key, v2⟩ : Entry K V).key k = true := by
    rw [he2]
    exact hm1'
  have hsymm2 : ∀ a b, tab2.equals a b = true → tab2.equals b a = true := by
    rw [he2]
    exact hsymm1
  have htrans2 : ∀ a b c, tab2.equals a b = true → tab2.equals b c = true →
      tab2.equals a c = true := by
    rw [he2]
    exact htrans1
  have hcons2 : ∀ a b, tab2.equals a b = true → tab2.hash a = tab2.hash b := by
    rw [he2, hh2]
    exact hcons1
  obtain ⟨d, hget⟩ :=
    get_of_entry tab2 k hswf2 hpwf2 hsymm2 htrans2 hcons2 hmem2 hm2
  exact ⟨bumpColl tab2 d, hget⟩

/-- C2: Growth correctness — on every reachable table with well-behaved functions,
an insertion whose resulting size reaches the load threshold (`size+1 ≥ 0.75·cap`,
i.e. `3·cap ≤ 4·(size+1)`) triggers exactly one synchronous rehash before `put`
returns: the `rehashes` counter grows by exactly 1 (no nested re-trigger), the new
capacity is `old · RESIZE_FACTOR` (strictly greater), and every entry present
before the rehash — the old entries and the newly inserted pair — is still
retrievable via `get` with its value. -/
theorem claim_C2_growth (tab : Table K V) (k : K) (v : V)
    (hre : Reachable tab) (hgood : Good tab)
    (hnc : ¬containsKey tab k)
    (hthr : 3 * tab.capacity ≤ 4 * (tab.size + 1)) :
    ∃ tab', Table.put tab k v = .ok (none, tab') ∧
      tab'.rehashes = tab.rehashes + 1 ∧
      tab'.capacity = tab.capacity * RESIZE_FACTOR ∧
      tab.capacity < tab'.capacity ∧
      tab'.size = tab.size + 1 ∧
      (∀ e ∈ entriesOf tab, ∃ tab'', Table.get tab' e.key = .ok (e.value, tab'')) ∧
      ∃ tab''', Table.get tab' k = .ok (v, tab''') := by
  have hswf := reachable_swf tab hre
  have hpwf := reachable_pwf tab hre hgood
  obtain ⟨hrefl, hsymm, htrans, hcons⟩ := hgood
  have hl : loadCheck (tab.size + 1) tab.capacity = true := loadCheck_true_of _ _ hthr
  obtain ⟨tab', hputeq, hswf', hpwf', hh', he', hp', hperm', hsz', _, hgrow⟩ :=
    put_insert_spec tab k v hswf hpwf hsymm hnc
  obtain ⟨hcap', hreh'⟩ := hgrow hl
  have hcpos : 0 < tab.capacity := by
    obtain ⟨_, _, hload, hcapeq⟩ := hswf
    omega
  have hsymm' : ∀ a b, tab'.equals a b = true → tab'.equals b a = true := by
    rw [he']
    exact hsymm
  have htrans' : ∀ a b c, tab'.equals a b = true → tab'.equals b c = true →
      tab'.equals a c = true := by
    rw [he']
    exact htrans
  have hcons' : ∀ a b, tab'.equals a b = true → tab'.hash a = tab'.hash b := by
    rw [he', hh']
    exact hcons
  refine ⟨tab', hputeq, hreh', hcap', ?_, hsz', ?_, ?_⟩
  · rw [hcap']
    have : RESIZE_FACTOR = 2 := rfl
    rw [this]
    omega
  · intro e hmem
    have hmem' : e ∈ entriesOf tab' :=
      hperm'.mem_iff.mpr (List.mem_cons_of_mem _ hmem)
    have hme : tab'.equals e.key e.key = true := by
      rw [he']
      exact hrefl e.key
    obtain ⟨d, hget⟩ :=
      get_of_entry tab' e.key hswf' hpwf' hsymm' htrans' hcons' hmem' hme
    exact ⟨bumpColl tab' d, hget⟩
  · have hmem' : (⟨k, v⟩ : Entry K V) ∈ entriesOf tab' :=
      hperm'.mem_iff.mpr (List.mem_cons_self _ _)
    have hmk : tab'.equals (⟨k, v⟩ : Entry K V).key k = true := by
      rw [he']
      exact hrefl k
    obtain ⟨d, hget⟩ :=
      get_of_entry tab' k hswf' hpwf' hsymm' htrans' hcons' hmem' hmk
    exact ⟨bumpColl tab' d, hget⟩

/-- C4: Membership accuracy — for every table built by a sequence of `put` calls
from `create` (with well-behaved hash and equality functions), `has` answers `true`
exactly for the keys `equals`-equal to some inserted key, and `false` exactly for
the others. -/
theorem claim_C4_membership (hf : K → Int) (eqs : K → K → Bool)
    (pr : K → V → Unit) (l : List (K × V))
    (hgood : Good (Table.create hf eqs pr)) :
    ∃ tab, runPuts (Table.create hf eqs pr) l = .ok tab ∧
      ∀ k, ((∃ tab', Table.has tab k = .ok (true, tab')) ↔
              ∃ p ∈ l, eqs p.1 k = true) ∧
           ((∃ tab', Table.has tab k = .ok (false, tab')) ↔
              ¬∃ p ∈ l, eqs p.1 k = true) := by
  have hswf0 := create_swf (V := V) hf eqs pr
  have hpwf0 : PWF (Table.create hf eqs pr) :=
    pwf_of_replicate _ INITIAL_CAPACITY rfl
  obtain ⟨tab, hrun, hswf, hpwf, hh, he, hp, hciff, _⟩ :=
    runPuts_spec l (Table.create hf eqs pr) hswf0 hpwf0 hgood
  obtain ⟨hrefl, hsymm, htrans, hcons⟩ := hgood
  have hcons' : ∀ a b, tab.equals a b = true → tab.hash a = tab.hash b := by
    rw [he, hh]
    exact hcons
  refine ⟨tab, hrun, ?_⟩
  intro k
  obtain ⟨d, hhas⟩ := has_spec tab k hswf hpwf hcons'
  have hnocreate : ¬containsKey (Table.create hf eqs pr) k :=
    not_contains_replicate _ INITIAL_CAPACITY rfl k
  have hcontiff : containsKey tab k ↔ ∃ p ∈ l, eqs p.1 k = true := by
    rw [hciff k]
    constructor
    · rintro (hc | hex)
      · exact absurd hc hnocreate
      · exact hex
    · intro hex
      exact Or.inr hex
  constructor
  · constructor
    · rintro ⟨tab', htrue⟩
      rw [hhas] at htrue
      have hb := (Prod.mk.injEq _ _ _ _).mp (CResult.ok.inj htrue) |>.1
      rw [← hcontiff]
      exact of_decide_eq_true hb
    · intro hex
      refine ⟨bumpColl tab d, ?_⟩
      rw [hhas, decide_eq_true (hcontiff.mpr hex)]
  · constructor
    · rintro ⟨tab', hfalse⟩
      rw [hhas] at hfalse
      have hb := (Prod.mk.injEq _ _ _ _).mp (CResult.ok.inj hfalse) |>.1
      rw [← hcontiff]
      exact of_decide_eq_false hb
    · intro hex
      refine ⟨bumpColl tab d, ?_⟩
      rw [hhas, decide_eq_false (fun hc => hex (hcontiff.mp hc))]

/-- C5: `get` fails fatally exactly when the key is absent — on every reachable
table with well-behaved functions, `has` returns normally with some Boolean `b`;
`get` aborts (the `assert(NULL)`) iff `b = false`; and when `b = true`, `get`
returns normally with the value associated with the (unique) `equals`-equal stored
key. -/
theorem claim_C5_get_abort_iff_absent (tab : Table K V) (k : K)
    (hre : Reachable tab) (hgood : Good tab) :
    ∃ b tab', Table.has tab k = .ok (b, tab') ∧
      (Table.get tab k = .abort ↔ b = false) ∧
      (b = true → ∃ e ∈ entriesOf tab, tab.equals e.key k = true ∧
        ∃ tab'', Table.get tab k = .ok (e.value, tab'')) := by
  have hswf := reachable_swf tab hre
  have hpwf := reachable_pwf tab hre hgood
  obtain ⟨hrefl, hsymm, htrans, hcons⟩ := hgood
  obtain ⟨d, hhas⟩ := has_spec tab k hswf hpwf hcons
  refine ⟨decide (containsKey tab k), bumpColl tab d, hhas, ?_, ?_⟩
  · rw [get_abort_iff tab k hswf hpwf hcons]
    constructor
    · intro hnc
      exact decide_eq_false hnc
    · intro hb
      exact of_decide_eq_false hb
  · intro hb
    have hcont := of_decide_eq_true hb
    obtain ⟨e0, hmem, hm0⟩ := (containsKey_iff_entry tab k).mp hcont
    obtain ⟨d', hget⟩ :=
      get_of_entry tab k hswf hpwf hsymm htrans hcons hmem hm0
    exact ⟨e0, hmem, hm0, bumpColl tab d', hget⟩

/-- C6: Size invariants — every reachable table satisfies `size ≤ capacity`; after
every successful `put` the load factor is strictly below the 0.75 threshold
(`4·size < 3·capacity`); and a fresh table into which `N` pairwise non-equal keys
are inserted by `put` (with well-behaved functions, no updates) has `size = N`. -/
theorem claim_C6_size_invariants :
    (∀ (K V : Type) (tab : Table K V), Reachable tab →
      tab.size ≤ tab.capacity ∧
      ∀ (k : K) (v : V) (r : Option V) (tab' : Table K V),
        Table.put tab k v = .ok (r, tab') →
          4 * tab'.size < 3 * tab'.capacity) ∧
    (∀ (K V : Type) (hf : K → Int) (eqs : K → K → Bool) (pr : K → V → Unit)
      (l : List (K × V)), Good (Table.create hf eqs pr) →
      List.Pairwise (fun p q => eqs p.1 q.1 = false) l →
      ∃ tab, runPuts (Table.create hf eqs pr) l = .ok tab ∧
        tab.size = l.length) := by
  constructor
  · intro K V tab hre
    obtain ⟨hlen, hsize, hload, hcapeq⟩ := reachable_swf tab hre
    constructor
    · omega
    · intro k v r tab' hput
      have hre' : Reachable tab' := by
        have h := Reachable.ofPut hre hput
        exact h
      obtain ⟨_, _, hload', _⟩ := reachable_swf tab' hre'
      exact hload'
  · intro K V hf eqs pr l hgood hpair
    have hswf0 := create_swf (V := V) hf eqs pr
    have hpwf0 : PWF (Table.create hf eqs pr) :=
      pwf_of_replicate _ INITIAL_CAPACITY rfl
    obtain ⟨tab, hrun, _, _, _, _, _, _, hsizeN⟩ :=
      runPuts_spec l (Table.create hf eqs pr) hswf0 hpwf0 hgood
    refine ⟨tab, hrun, ?_⟩
    have hN := hsizeN ⟨hpair, fun p _ =>
      not_contains_replicate _ INITIAL_CAPACITY rfl p.1⟩
    rw [hN]
    show 0 + l.length = l.length
    omega

/-- C7: Bulk retrieval completeness — on every reachable table with well-behaved
functions, `keys` and `values` (which scan the slots in increasing index order)
each return exactly `size` elements; every returned key satisfies `has`; and the
value at each position is the value stored with the key at the same position, so
`get` on `keys[i]` returns `values[i]`. -/
theorem claim_C7_bulk_retrieval (tab : Table K V)
    (hre : Reachable tab) (hgood : Good tab) :
    (Table.keys tab).length = tab.size ∧
    (Table.values tab).length = tab.size ∧
    (∀ k ∈ Table.keys tab, ∃ tab', Table.has tab k = .ok (true, tab')) ∧
    ∀ (i : Nat), i < (Table.keys tab).length → i < (Table.values tab).length →
      ∃ e ∈ entriesOf tab,
        (Table.keys tab).getD i e.key = e.key ∧
        (Table.values tab).getD i e.value = e.value ∧
        ∃ tab', Table.get tab ((Table.keys tab).getD i e.key) =
          .ok ((Table.values tab).getD i e.value, tab') := by
  have hswf := reachable_swf tab hre
  have hpwf := reachable_pwf tab hre hgood
  obtain ⟨hrefl, hsymm, htrans, hcons⟩ := hgood
  obtain ⟨hlen, hsize, hload, hcapeq⟩ := hswf
  have hklen : (Table.keys tab).length = tab.size := by
    rw [keys_eq_map, List.length_map, hsize]
    rfl
  have hvlen : (Table.values tab).length = tab.size := by
    rw [values_eq_map, List.length_map, hsize]
    rfl
  refine ⟨hklen, hvlen, ?_, ?_⟩
  · intro k hk
    rw [keys_eq_map] at hk
    obtain ⟨e, hmem, hke⟩ := List.mem_map.mp hk
    have hcont : containsKey tab k := (containsKey_iff_entry tab k).mpr
      ⟨e, hmem, by rw [hke]; exact hrefl k⟩
    obtain ⟨d, hhas⟩ := has_spec tab k ⟨hlen, hsize, hload, hcapeq⟩ hpwf hcons
    refine ⟨bumpColl tab d, ?_⟩
    rw [hhas, decide_eq_true hcont]
  · intro i hki hvi
    have hilen : i < (entriesOf tab).length := by
      rw [keys_eq_map, List.length_map] at hki
      exact hki
    have hkeys_i : ∀ dflt, (Table.keys tab).getD i dflt =
        ((entriesOf tab).get ⟨i, hilen⟩).key := by
      intro dflt
      rw [keys_eq_map, List.getD_eq_getElem?_getD, List.getElem?_eq_getElem
        (by rw [List.length_map]; exact hilen)]
      simp [List.getElem_map]
    have hvals_i : ∀ dflt, (Table.values tab).getD i dflt =
        ((entriesOf tab).get ⟨i, hilen⟩).value := by
      intro dflt
      rw [values_eq_map, List.getD_eq_getElem?_getD, List.getElem?_eq_getElem
        (by rw [List.length_map]; exact hilen)]
      simp [List.getElem_map]
    have hmem : (entriesOf tab).get ⟨i, hilen⟩ ∈ entriesOf tab :=
      List.get_mem _ _ _
    obtain ⟨d, hget⟩ := get_of_entry tab ((entriesOf tab).get ⟨i, hilen⟩).key
      ⟨hlen, hsize, hload, hcapeq⟩ hpwf hsymm htrans hcons hmem
      (hrefl ((entriesOf tab).get ⟨i, hilen⟩).key)
    refine ⟨(entriesOf tab).get ⟨i, hilen⟩, hmem, hkeys_i _, hvals_i _, ?_⟩
    rw [hkeys_i, hvals_i]
    exact ⟨bumpColl tab d, hget⟩

/-- C8: Probe-index safety — on every reachable table, for every key (including
keys whose hash is a negative `long`), the starting probe index is in range
`0..capacity-1`, every probe advance stays in range, the capacity is the
power-of-two `INITIAL_CAPACITY · RESIZE_FACTOR^rehashes`, and (whenever that
capacity divides 2^64, as any power-of-two `size_t` value does) the starting index
is exactly the mathematical `hash(key) mod capacity`. -/
theorem claim_C8_probe_index_safety (tab : Table K V) (k : K)
    (hre : Reachable tab) :
    tab.start k < tab.capacity ∧
    (∀ i, i < tab.capacity → nextIndex tab.capacity i < tab.capacity) ∧
    tab.capacity = INITIAL_CAPACITY * RESIZE_FACTOR ^ tab.rehashes ∧
    (tab.capacity ∣ 2 ^ 64 →
      tab.start k = (tab.hash k % (tab.capacity : Int)).toNat) := by
  have hswf := reachable_swf tab hre
  have hc := swf_cap_pos tab hswf
  obtain ⟨hlen, hsize, hload, hcapeq⟩ := hswf
  exact ⟨start_lt tab k hc, fun i _ => nextIndex_lt _ i hc, hcapeq,
    fun hdvd => startIndex_eq_emod (tab.hash k) tab.capacity hc hdvd⟩

/-- C9: Implicit frame property of the queries — on every reachable table, `has`
(and `get`, when it returns) leaves `size`, `capacity`, `rehashes` and every slot
unchanged; the only field modified is `collisions`, incremented exactly once per
probed non-matching occupied slot (`d` below, the number of steps to the first
empty-or-matching slot). -/
theorem claim_C9_query_frame (tab : Table K V) (k : K) (hre : Reachable tab) :
    ∃ b d tab', Table.has tab k = .ok (b, tab') ∧
      stopSteps tab k = some d ∧
      tab'.table = tab.table ∧ tab'.size = tab.size ∧
      tab'.capacity = tab.capacity ∧ tab'.rehashes = tab.rehashes ∧
      tab'.hash = tab.hash ∧ tab'.equals = tab.equals ∧
      tab'.collisions = tab.collisions + d ∧
      (∀ t, t < d →
        (slotAt tab.table (idx tab.capacity (tab.start k) t)).isSome = true ∧
        slotMatches tab.equals
          (slotAt tab.table (idx tab.capacity (tab.start k) t)) k = false) ∧
      ∀ v tab'', Table.get tab k = .ok (v, tab'') → tab'' = tab' := by
  obtain ⟨hlen, hsize, hload, hcapeq⟩ := reachable_swf tab hre
  have hocc : occCount tab.table < tab.capacity := by omega
  obtain ⟨d, hdlt, hmin, hcase⟩ := runProbe_spec tab k hlen hocc
  have hprobed : ∀ t, t < d →
      (slotAt tab.table (idx tab.capacity (tab.start k) t)).isSome = true ∧
      slotMatches tab.equals
        (slotAt tab.table (idx tab.capacity (tab.start k) t)) k = false := by
    intro t ht
    obtain ⟨e', hs', hne'⟩ := isStop_false_elim (hmin t ht)
    rw [hs']
    exact ⟨rfl, hne'⟩
  rcases hcase with ⟨hnone, hrun⟩ | ⟨e, hsome, hm, hrun⟩
  · have hstop : stopSteps tab k = some d := by
      unfold stopSteps
      apply find?_range_eq_some _ _ d hdlt ?_ hmin
      unfold isStop
      rw [hnone]
    refine ⟨false, d, bumpColl tab d, has_empty hrun, hstop, rfl, rfl, rfl, rfl,
      rfl, rfl, rfl, hprobed, ?_⟩
    intro v tab'' hget
    rw [get_empty hrun] at hget
    exact absurd hget (fun hcon => CResult.noConfusion hcon)
  · have hstop : stopSteps tab k = some d := by
      unfold stopSteps
      apply find?_range_eq_some _ _ d hdlt ?_ hmin
      unfold isStop
      rw [hsome]
      exact hm
    refine ⟨true, d, bumpColl tab d, has_found hrun, hstop, rfl, rfl, rfl, rfl,
      rfl, rfl, rfl, hprobed, ?_⟩
    intro v tab'' hget
    rw [get_found hrun] at hget
    exact ((Prod.mk.injEq _ _ _ _).mp (CResult.ok.inj hget)).2.symm

/-- C10: Implicit termination of probing — on every reachable table (where
`size < capacity` guarantees an empty slot) the linear-probe loops of `get`, `has`
and `put` terminate within `capacity` iterations (the probe run with fuel
`capacity` does not diverge), and none of the three operations runs forever. -/
theorem claim_C10_probe_termination (tab : Table K V) (k : K) (v : V)
    (hre : Reachable tab) :
    runProbe tab k ≠ .diverge ∧ Table.get tab k ≠ .hang ∧
      Table.has tab k ≠ .hang ∧ Table.put tab k v ≠ .hang := by
  have hswf := reachable_swf tab hre
  obtain ⟨hlen, hsize, hload, hcapeq⟩ := hswf
  have hocc : occCount tab.table < tab.capacity := by omega
  obtain ⟨d, hdlt, hmin, hcase⟩ := runProbe_spec tab k hlen hocc
  obtain ⟨r, tab', hok, _⟩ := put_swf tab k v ⟨hlen, hsize, hload, hcapeq⟩
  rcases hcase with ⟨hnone, hrun⟩ | ⟨e, hsome, hm, hrun⟩
  · refine ⟨?_, ?_, ?_, ?_⟩
    · rw [hrun]
      exact fun hcon => ProbeRes.noConfusion hcon
    · rw [get_empty hrun]
      exact fun hcon => CResult.noConfusion hcon
    · rw [has_empty hrun]
      exact fun hcon => CResult.noConfusion hcon
    · rw [hok]
      exact fun hcon => CResult.noConfusion hcon
  · refine ⟨?_, ?_, ?_, ?_⟩
    · rw [hrun]
      exact fun hcon => ProbeRes.noConfusion hcon
    · rw [get_found hrun]
      exact fun hcon => CResult.noConfusion hcon
    · rw [has_found hrun]
      exact fun hcon => CResult.noConfusion hcon
    · rw [hok]
      exact fun hcon => CResult.noConfusion hcon

theorem wT5_run : runPuts wT0 wPairs5 = .ok wT5 := rfl

theorem wT0_reachable : Reachable wT0 := Reachable.created wHash wEq wPr

theorem wT5_reachable : Reachable wT5 :=
  reachable_runPuts wPairs5 wT0 wT0_reachable wT5 wT5_run

theorem wGood0 : Good wT0 := by decide

theorem wGood5 : Good wT5 := by decide

/-- A table whose hash function returns a negative `long` for every key. -/
def wNegHash : Fin 8 → Int := fun _ => -5

/-- Concrete table with a negative hash function, for the probe-index claim. -/
def wTneg : Table (Fin 8) Nat := Table.create wNegHash wEq wPr

/-- Witness for C1: inserting key 6 with value 999 into the concrete 5-entry table
and reading it back returns 999. -/
theorem claim_C1_roundtrip_witness :
    ∃ r tab', Table.put wT5 (6 : Fin 8) 999 = .ok (r, tab') ∧
      ∃ tab'', Table.get tab' (6 : Fin 8) = .ok (999, tab'') :=
  claim_C1_roundtrip wT5 6 999 wT5_reachable wGood5

/-- Witness for C2, on the spec's exact boundary: the table holds 5 entries at
capacity 8, so inserting the 6th distinct key reaches 6/8 ≥ 0.75 and rehashes to
capacity 16, preserving all entries. -/
theorem claim_C2_growth_witness :
    wT5.size = 5 ∧ wT5.capacity = 8 ∧ 3 * wT5.capacity ≤ 4 * (wT5.size + 1) ∧
    ∃ tab', Table.put wT5 (5 : Fin 8) 105 = .ok (none, tab') ∧
      tab'.rehashes = wT5.rehashes + 1 ∧
      tab'.capacity = wT5.capacity * RESIZE_FACTOR ∧
      wT5.capacity < tab'.capacity ∧
      tab'.size = wT5.size + 1 ∧
      (∀ e ∈ entriesOf wT5, ∃ tab'', Table.get tab' e.key = .ok (e.value, tab'')) ∧
      ∃ tab''', Table.get tab' (5 : Fin 8) = .ok (105, tab''') :=
  ⟨by decide, by decide, by decide,
    claim_C2_growth wT5 5 105 wT5_reachable wGood5 (by decide) (by decide)⟩

/-- Witness for C3: put 10 then 20 under key 2 in a fresh table; the second put
returns 10, `get` returns 20, size is unchanged by the second put. -/
theorem claim_C3_update_semantics_witness :
    ∃ r1 tab1, Table.put wT0 (2 : Fin 8) 10 = .ok (r1, tab1) ∧
      (¬containsKey wT0 (2 : Fin 8) → r1 = none) ∧
      ∃ tab2, Table.put tab1 (2 : Fin 8) 20 = .ok (some 10, tab2) ∧
        tab2.size = tab1.size ∧
        ∃ tab3, Table.get tab2 (2 : Fin 8) = .ok (20, tab3) :=
  claim_C3_update_semantics wT0 2 10 20 wT0_reachable wGood0

/-- Witness for C4: after inserting keys 1 and 2 into a fresh table, `has` is true
exactly on keys equal to 1 or 2. -/
theorem claim_C4_membership_witness :
    ∃ tab, runPuts (Table.create wHash wEq wPr) [(1, 11), (2, 22)] = .ok tab ∧
      ∀ k, ((∃ tab', Table.has tab k = .ok (true, tab')) ↔
              ∃ p ∈ [((1 : Fin 8), 11), (2, 22)], wEq p.1 k = true) ∧
           ((∃ tab', Table.has tab k = .ok (false, tab')) ↔
              ¬∃ p ∈ [((1 : Fin 8), 11), (2, 22)], wEq p.1 k = true) :=
  claim_C4_membership wHash wEq wPr [(1, 11), (2, 22)] wGood0

/-- Witness for C5 at the absent key 7 of the concrete 5-entry table: `has`
returns a Boolean `b` and `get` aborts exactly when `b = false`. -/
theorem claim_C5_get_abort_iff_absent_witness :
    ∃ b tab', Table.has wT5 (7 : Fin 8) = .ok (b, tab') ∧
      (Table.get wT5 (7 : Fin 8) = .abort ↔ b = false) ∧
      (b = true → ∃ e ∈ entriesOf wT5, wT5.equals e.key (7 : Fin 8) = true ∧
        ∃ tab'', Table.get wT5 (7 : Fin 8) = .ok (e.value, tab'')) :=
  claim_C5_get_abort_iff_absent wT5 7 wT5_reachable wGood5

/-- Witness for C6: the concrete 5-entry table obeys `size ≤ capacity`, and two
distinct insertions into a fresh table give size 2. -/
theorem claim_C6_size_invariants_witness :
    wT5.size ≤ wT5.capacity ∧
    (∃ tab, runPuts (Table.create wHash wEq wPr) [(1, 11), (2, 22)] = .ok tab ∧
      tab.size = [((1 : Fin 8), 11), (2, 22)].length) :=
  ⟨(claim_C6_size_invariants.1 (Fin 8) Nat wT5 wT5_reachable).1,
    claim_C6_size_invariants.2 (Fin 8) Nat wHash wEq wPr [(1, 11), (2, 22)]
      wGood0 (by decide)⟩

/-- Witness for C7 on the concrete 5-entry table. -/
theorem claim_C7_bulk_retrieval_witness :
    (Table.keys wT5).length = wT5.size ∧
    (Table.values wT5).length = wT5.size ∧
    (∀ k ∈ Table.keys wT5, ∃ tab', Table.has wT5 k = .ok (true, tab')) ∧
    ∀ (i : Nat), i < (Table.keys wT5).length → i < (Table.values wT5).length →
      ∃ e ∈ entriesOf wT5,
        (Table.keys wT5).getD i e.key = e.key ∧
        (Table.values wT5).getD i e.value = e.value ∧
        ∃ tab', Table.get wT5 ((Table.keys wT5).getD i e.key) =
          .ok ((Table.values wT5).getD i e.value, tab') :=
  claim_C7_bulk_retrieval wT5 wT5_reachable wGood5

/-- Witness for C8 on a table whose hash function returns the negative `long` -5
for every key: the start index is (-5) mod 8 = 3, in range. -/
theorem claim_C8_probe_index_safety_witness :
    wTneg.hash 0 = -5 ∧ wTneg.start 0 = 3 ∧
    (wTneg.start 0 < wTneg.capacity ∧
      (∀ i, i < wTneg.capacity → nextIndex wTneg.capacity i < wTneg.capacity) ∧
      wTneg.capacity = INITIAL_CAPACITY * RESIZE_FACTOR ^ wTneg.rehashes ∧
      (wTneg.capacity ∣ 2 ^ 64 →
        wTneg.start 0 = (wTneg.hash 0 % (wTneg.capacity : Int)).toNat)) :=
  ⟨by decide, by decide,
    claim_C8_probe_index_safety wTneg 0 (Reachable.created wNegHash wEq wPr)⟩

/-- Witness for C9 on the concrete 5-entry table at key 2. -/
theorem claim_C9_query_frame_witness :
    ∃ b d tab', Table.has wT5 (2 : Fin 8) = .ok (b, tab') ∧
      stopSteps wT5 (2 : Fin 8) = some d ∧
      tab'.table = wT5.table ∧ tab'.size = wT5.size ∧
      tab'.capacity = wT5.capacity ∧ tab'.rehashes = wT5.rehashes ∧
      tab'.hash = wT5.hash ∧ tab'.equals = wT5.equals ∧
      tab'.collisions = wT5.collisions + d ∧
      (∀ t, t < d →
        (slotAt wT5.table (idx wT5.capacity (wT5.start (2 : Fin 8)) t)).isSome
          = true ∧
        slotMatches wT5.equals
          (slotAt wT5.table (idx wT5.capacity (wT5.start (2 : Fin 8)) t))
          (2 : Fin 8) = false) ∧
      ∀ v tab'', Table.get wT5 (2 : Fin 8) = .ok (v, tab'') → tab'' = tab' :=
  claim_C9_query_frame wT5 2 wT5_reachable

/-- Witness for C10 on the concrete 5-entry table. -/
theorem claim_C10_probe_termination_witness :
    runProbe wT5 (7 : Fin 8) ≠ .diverge ∧ Table.get wT5 (7 : Fin 8) ≠ .hang ∧
      Table.has wT5 (7 : Fin 8) ≠ .hang ∧
      Table.put wT5 (7 : Fin 8) 42 ≠ .hang :=
  claim_C10_probe_termination wT5 7 42 wT5_reachable
